import Mathlib

/-!
Verification development for the Herbert Simon papers catalog
(src/db/database.py): a shallow embedding of the archival search and
reconciliation engine, together with theorems about its specified
behaviour.

Modelling conventions:
* SQL rows become Lean structures; nullable columns become Option fields.
* All string processing is done on List Char with structural recursion (or
  explicit fuel where the Python loop is index-driven), so that every
  definition evaluates inside the kernel.
* Character classes (isalnum, isspace, isdigit) are modelled by Lean's
  ASCII classifiers; the archival data this system processes is ASCII.
* External engines (the SQLite FTS5 MATCH predicate and the Python re
  module) are oracles passed as parameters; the Python REGEXP wrapper's
  exception handling is modelled by the oracle returning Option Bool,
  where none stands for an exception at evaluation (or compile) time.
* SQLite's LIKE operator is modelled directly (percent = any sequence,
  underscore = single character, ASCII-case-insensitive, no ESCAPE
  clause, NULL operand yields no match).
-/

namespace Simon

/-! ## Character-list utilities -/

/-- Whitespace trim from the left, as Python str.strip does on one side. -/
def trimL (l : List Char) : List Char := l.dropWhile Char.isWhitespace

/-- Python str.strip: whitespace removed from both ends. -/
def pyStrip (l : List Char) : List Char := (trimL ((trimL l).reverse)).reverse

/-- Python str.upper restricted to ASCII, as used for operator detection. -/
def upperAscii (l : List Char) : List Char := l.map Char.toUpper

/-- Python str.split() with no separator: maximal runs of non-whitespace. -/
def pyWords : List Char → List (List Char)
  | [] => []
  | c :: r =>
    if c.isWhitespace then pyWords r
    else
      match pyWords r with
      | [] => [[c]]
      | w :: ws =>
        match r with
        | [] => [[c]]
        | d :: _ => if d.isWhitespace then [c] :: w :: ws else (c :: w) :: ws

/-- Join chunks with a single space, as str.join with a space separator. -/
def joinSpace : List (List Char) → List Char
  | [] => []
  | [x] => x
  | x :: y :: r => x ++ ' ' :: joinSpace (y :: r)

/-! ## QueryCompiler: _build_fts_query -/

/-- Tokens produced by the FTS query tokenizer. -/
inductive Tok where
  | word (w : List Char)
  | phrase (p : List Char)
  | opAnd
  | opOr
  | opNot
  | lparen
  | rparen
  deriving DecidableEq, Repr

/-- Split at the first double quote: contents before it and the remainder
after it.  When no quote exists the whole input is the contents and the
remainder is empty, mirroring query.find returning -1 with the end set to
len(query) and the index jumping past it. -/
def splitQuote : List Char → List Char × List Char
  | [] => ([], [])
  | c :: r =>
    if c = '"' then ([], r)
    else
      let (a, b) := splitQuote r
      (c :: a, b)

/-- Characters that continue a word token: not whitespace and not one of
the quote or parenthesis structural characters. -/
def isWordChar (c : Char) : Bool := !c.isWhitespace && !(c = '"') && !(c = '(') && !(c = ')')

/-- Sanitize a word: keep only alphanumerics, dash and underscore. -/
def cleanWord (w : List Char) : List Char :=
  w.filter (fun c => c.isAlphanum || c = '-' || c = '_')

/-- Classify a raw word run as an operator or a sanitized word token;
none when the word sanitizes to empty and is dropped. -/
def classifyWord (w : List Char) : Option Tok :=
  if upperAscii w = "AND".data then some Tok.opAnd
  else if upperAscii w = "OR".data then some Tok.opOr
  else if upperAscii w = "NOT".data then some Tok.opNot
  else
    let c := cleanWord w
    if c = [] then none else some (Tok.word c)

/-- The tokenizer loop of _build_fts_query.  The Python original advances
an index through the string; every iteration consumes at least one
character, which the fuel argument makes explicit.  Fuel exhaustion on a
nonempty remainder returns none; the totality theorem below shows the
fuel equal to the input length always suffices. -/
def tokenizeFuel : Nat → List Char → Option (List Tok)
  | _, [] => some []
  | 0, _ :: _ => none
  | fuel + 1, c :: rest =>
    if c.isWhitespace then tokenizeFuel fuel rest
    else if c = '"' then
      let (body, rest') := splitQuote rest
      let ph := pyStrip body
      (tokenizeFuel fuel rest').map (fun ts => if ph = [] then ts else Tok.phrase ph :: ts)
    else if c = '(' then (tokenizeFuel fuel rest).map (fun ts => Tok.lparen :: ts)
    else if c = ')' then (tokenizeFuel fuel rest).map (fun ts => Tok.rparen :: ts)
    else
      let w := c :: rest.takeWhile isWordChar
      let rest' := rest.dropWhile isWordChar
      (tokenizeFuel fuel rest').map (fun ts =>
        match classifyWord w with
        | some t => t :: ts
        | none => ts)

/-- Tokenize with sufficient fuel. -/
def tokenize (l : List Char) : List Tok := (tokenizeFuel l.length l).getD []

/-- Is this token a term (word, phrase or opening parenthesis) before
which an implicit AND may be needed? -/
def startsTerm : Tok → Bool
  | Tok.word _ => true
  | Tok.phrase _ => true
  | Tok.lparen => true
  | _ => false

/-- Did the previous token end a term (word, phrase or closing
parenthesis)? -/
def endsTerm : Tok → Bool
  | Tok.word _ => true
  | Tok.phrase _ => true
  | Tok.rparen => true
  | _ => false

/-- Insert an implicit AND whenever a word, phrase or opening parenthesis
immediately follows a word, phrase or closing parenthesis. -/
def insertImplicitAnds : Option Tok → List Tok → List Tok
  | _, [] => []
  | prev, t :: ts =>
    let lead := startsTerm t && (match prev with
      | some p => endsTerm p
      | none => false)
    (if lead then [Tok.opAnd] else []) ++ t :: insertImplicitAnds (some t) ts

/-- Render a token in FTS5 syntax: words and phrases are quoted,
operators and parentheses pass through. -/
def renderTok : Tok → List Char
  | Tok.word w => '"' :: w ++ ['"']
  | Tok.phrase p => '"' :: p ++ ['"']
  | Tok.opAnd => "AND".data
  | Tok.opOr => "OR".data
  | Tok.opNot => "NOT".data
  | Tok.lparen => ['(']
  | Tok.rparen => [')']

/-- The compiler _build_fts_query: strip, tokenize, insert implicit
conjunctions, render. -/
def build_fts_query (query : String) : String :=
  let l := pyStrip query.data
  if l = [] then ""
  else
    let ts := tokenize l
    if ts = [] then ""
    else String.mk (joinSpace ((insertImplicitAnds none ts).map renderTok))

example : build_fts_query "simon carnegie" = "\"simon\" AND \"carnegie\"" := by decide
example : build_fts_query "simon OR newell" = "\"simon\" OR \"newell\"" := by decide
example : build_fts_query "simon NOT chess" = "\"simon\" NOT \"chess\"" := by decide
example : build_fts_query "\"bounded rationality\"" = "\"bounded rationality\"" := by decide
example : build_fts_query "(simon OR newell) AND AI" = "( \"simon\" OR \"newell\" ) AND \"AI\"" := by decide
example : build_fts_query "simon \"unterminated" = "\"simon\" AND \"unterminated\"" := by decide

/-! ## The Record store: rows of the papers table -/

/-- One row of the papers table.  The id column is the AUTOINCREMENT
primary key; node_id is the external catalog identifier (negative for
synthesized placeholders); nullable columns are Option fields.  Columns
not touched by the engine (url, thumbnails, r2 keys, starring, pdf paths)
are omitted. -/
structure Paper where
  id : Int
  node_id : Int
  title : String
  date : Option String := none
  date_sort : Option String := none
  series : Option String := none
  item_type : Option String := none
  box_number : Option Int := none
  folder_number : Option Int := none
  bundle_number : Option Int := none
  document_number : Option Int := none
  text_content : Option String := none
  ocr_status : Option String := none
  summary : Option String := none
  tags : Option String := none
  language : Option String := none
  analysis_status : Option String := none
  analysis_model : Option String := none
  deriving DecidableEq, Repr

/-- The keyword arguments of search_papers. -/
structure SearchConfig where
  query : Option String := none
  series : Option String := none
  item_type : Option String := none
  date_from : Option String := none
  date_to : Option String := none
  box_number : Option Int := none
  folder_number : Option Int := none
  sort_by : String := "date_sort"
  sort_order : String := "DESC"
  limit : Nat := 50
  offset : Nat := 0
  fuzzy : Bool := false
  use_regex : Bool := false
  analysis_model : Option String := none
  language : Option String := none
  tags : Option (List String) := none
  include_coverage : String := "digitized"
  deriving Repr

/-! ## SQL value comparison (BINARY collation, NULLs first) -/

/-- Lexicographic byte comparison of text values (SQLite BINARY
collation; on code points this coincides with UTF-8 memcmp). -/
def cmpChars : List Char → List Char → Ordering
  | [], [] => .eq
  | [], _ :: _ => .lt
  | _ :: _, [] => .gt
  | a :: as', b :: bs' =>
    if a.val < b.val then .lt
    else if b.val < a.val then .gt
    else cmpChars as' bs'

/-- Integer comparison. -/
def cmpInt (a b : Int) : Ordering :=
  if a < b then .lt else if b < a then .gt else .eq

/-- SQL ORDER BY on a nullable integer column, ascending: NULL sorts
first. -/
def cmpOptInt : Option Int → Option Int → Ordering
  | none, none => .eq
  | none, some _ => .lt
  | some _, none => .gt
  | some a, some b => cmpInt a b

/-- SQL ORDER BY on a nullable text column, ascending: NULL sorts
first. -/
def cmpOptStr : Option String → Option String → Ordering
  | none, none => .eq
  | none, some _ => .lt
  | some _, none => .gt
  | some a, some b => cmpChars a.data b.data

/-! ## SQLite LIKE, modelled -/

/-- SQLite LIKE pattern matching: percent matches any character
sequence, underscore any single character, other characters match
ASCII-case-insensitively.  No ESCAPE clause is in effect (search_papers
never supplies one), so backslash is an ordinary character. -/
def likeM : List Char → List Char → Bool
  | [], s => s.isEmpty
  | c :: ps, s =>
    if c = '%' then s.tails.any (fun t => likeM ps t)
    else if c = '_' then
      match s with
      | [] => false
      | _ :: s' => likeM ps s'
    else
      match s with
      | [] => false
      | d :: s' => (c.toLower == d.toLower) && likeM ps s'

/-- The column LIKE pattern predicate: NULL column never matches. -/
def likeCol (pat : List Char) : Option String → Bool
  | none => false
  | some s => likeM pat s.data

/-! ## The regex oracle and the REGEXP wrapper -/

/-- The REGEXP function registered on the connection, given a regex
engine re : pattern -> string -> Option Bool where none models the
engine raising (including a pattern that fails to compile).  A NULL
column value returns False before the engine is consulted; an engine
exception is caught and returns False. -/
def regexpFn (re : String → String → Option Bool) (pat : String) : Option String → Bool
  | none => false
  | some s =>
    match re pat s with
    | none => false
    | some b => b

/-! ## Tag filtering -/

/-- Escape a tag for the LIKE pattern: percent and underscore get a
backslash prefix (note search_papers adds no ESCAPE clause to the LIKE).
-/
def escapeTag : List Char → List Char
  | [] => []
  | c :: r =>
    if c = '%' || c = '_' then '\\' :: c :: escapeTag r
    else c :: escapeTag r

/-- The LIKE pattern built for one required tag. -/
def tagPattern (tag : String) : List Char :=
  '%' :: '"' :: escapeTag tag.data ++ '"' :: ['%']

/-- ASCII lowercasing of a character list, the folding SQLite LIKE
applies to both operands. -/
def lowerL (l : List Char) : List Char := l.map Char.toLower

/-- Characters of ordinary tag values: letters, digits, dash and
space.  Quotes, commas, brackets, backslashes and the LIKE wildcard
characters are all excluded. -/
def plainChar (c : Char) : Bool := c.isAlphanum || c = '-' || c = ' '

/-- A JSON string literal without escapes (exact for plain tags). -/
def quoteJson (e : List Char) : List Char := '"' :: e ++ ['"']

/-- The body of the JSON array text json.dumps produces for a list of
plain strings: quoted elements joined by comma-space. -/
def tagsBody : List (List Char) → List Char
  | [] => []
  | [e] => quoteJson e
  | e :: rest => quoteJson e ++ ',' :: ' ' :: tagsBody rest

/-- The JSON text stored in the tags column for a list of plain tags,
as the analysis pipeline writes it with json.dumps. -/
def encTags (es : List String) : String :=
  String.mk ('[' :: tagsBody (es.map String.data) ++ [']'])

/-! ## The WHERE clause of search_papers -/

/-- The free-text clause: regex mode, fuzzy mode or FTS5 boolean mode.
The fts oracle stands for the external FTS5 MATCH predicate of the
papers_fts table.  An empty (falsy) query adds no clause. -/
def queryPred (fts : String → Paper → Bool) (re : String → String → Option Bool)
    (cfg : SearchConfig) (p : Paper) : Bool :=
  match cfg.query with
  | none => true
  | some q =>
    if q = "" then true
    else if cfg.use_regex then
      regexpFn re q (some p.title) || regexpFn re q p.text_content
    else if cfg.fuzzy then
      let conds := (pyWords q.data).filter (fun w => 2 ≤ w.length)
      if conds = [] then true
      else conds.any (fun w =>
        likeCol ('%' :: w ++ ['%']) (some p.title) || likeCol ('%' :: w ++ ['%']) p.text_content)
    else
      let fq := build_fts_query q
      if fq = "" then true else fts fq p

/-- Equality filter on a nullable text column: absent filter passes,
empty-string filter is falsy in Python and also passes. -/
def eqFilterStr (filt : Option String) (col : Option String) : Bool :=
  match filt with
  | none => true
  | some f => if f = "" then true else col = some f

/-- Equality filter on a nullable integer column (is None check in
Python, so 0 is a real filter value). -/
def eqFilterInt (filt : Option Int) (col : Option Int) : Bool :=
  match filt with
  | none => true
  | some f => col = some f

/-- Inclusive lower bound on date_sort; SQL comparison with NULL is not
true. -/
def dateFromPred (filt : Option String) (col : Option String) : Bool :=
  match filt with
  | none => true
  | some f =>
    if f = "" then true
    else
      match col with
      | none => false
      | some d => cmpChars d.data f.data ≠ .lt

/-- Inclusive upper bound on date_sort. -/
def dateToPred (filt : Option String) (col : Option String) : Bool :=
  match filt with
  | none => true
  | some f =>
    if f = "" then true
    else
      match col with
      | none => false
      | some d => cmpChars d.data f.data ≠ .gt

/-- Is the record flagged as a non-digitized placeholder? -/
def isMissingRec (p : Paper) : Bool := p.ocr_status = some "not_digitized"

/-- The coverage clause: digitized excludes placeholder records, missing
keeps exactly them, any other value (such as all) adds no clause. -/
def coveragePred (mode : String) (p : Paper) : Bool :=
  if mode = "digitized" then
    match p.ocr_status with
    | none => true
    | some s => !(s = "not_digitized")
  else if mode = "missing" then isMissingRec p
  else true

/-- The tag clause: one LIKE per required tag, all conjoined. -/
def tagsPred (filt : Option (List String)) (p : Paper) : Bool :=
  match filt with
  | none => true
  | some tags =>
    if tags = [] then true
    else tags.all (fun t => likeCol (tagPattern t) p.tags)

/-- The full WHERE predicate of search_papers, clauses conjoined in the
order the code appends them. -/
def wherePred (fts : String → Paper → Bool) (re : String → String → Option Bool)
    (cfg : SearchConfig) (p : Paper) : Bool :=
  queryPred fts re cfg p &&
  eqFilterStr cfg.series p.series &&
  eqFilterStr cfg.item_type p.item_type &&
  dateFromPred cfg.date_from p.date_sort &&
  dateToPred cfg.date_to p.date_sort &&
  eqFilterInt cfg.box_number p.box_number &&
  eqFilterInt cfg.folder_number p.folder_number &&
  eqFilterStr cfg.analysis_model p.analysis_model &&
  eqFilterStr cfg.language p.language &&
  coveragePred cfg.include_coverage p &&
  tagsPred cfg.tags p

/-! ## ORDER BY -/

/-- The allow-list of sort columns. -/
def valid_sort_columns : List String :=
  ["date_sort", "title", "series", "item_type", "id", "box_number", "folder_number",
   "archive_order"]

/-- Ascending comparison on a single allow-listed column. -/
def colCmp (col : String) (a b : Paper) : Ordering :=
  if col = "title" then cmpChars a.title.data b.title.data
  else if col = "series" then cmpOptStr a.series b.series
  else if col = "item_type" then cmpOptStr a.item_type b.item_type
  else if col = "id" then cmpInt a.id b.id
  else if col = "box_number" then cmpOptInt a.box_number b.box_number
  else if col = "folder_number" then cmpOptInt a.folder_number b.folder_number
  else cmpOptStr a.date_sort b.date_sort

/-- Does sort_order.upper() equal DESC? -/
def isDescOrder (cfg : SearchConfig) : Bool := upperAscii cfg.sort_order.data = "DESC".data

/-- Apply the sort direction to one comparison: DESC swaps it. -/
def applyDir : Bool → Ordering → Ordering
  | true, o => o.swap
  | false, o => o

/-- The ORDER BY comparison: the archive_order composite compares the
four-part address with the direction applied to every component;
otherwise a single column with direction, any column outside the
allow-list silently replaced by date_sort. -/
def orderCmp (cfg : SearchConfig) (a b : Paper) : Ordering :=
  let dir := applyDir (isDescOrder cfg)
  if cfg.sort_by = "archive_order" then
    (dir (cmpOptInt a.box_number b.box_number)).then
      ((dir (cmpOptInt a.folder_number b.folder_number)).then
        ((dir (cmpOptInt a.bundle_number b.bundle_number)).then
          (dir (cmpOptInt a.document_number b.document_number))))
  else
    let col := if valid_sort_columns.contains cfg.sort_by then cfg.sort_by else "date_sort"
    dir (colCmp col a b)

/-- May a stand at or before b in the sorted output? -/
def orderLe (cfg : SearchConfig) (a b : Paper) : Bool := orderCmp cfg a b ≠ .gt

/-- The search executor: filter, count over the full matching set, sort,
then paginate with LIMIT and OFFSET.  Ordering among rows the comparison
ties is unspecified in SQL; the model fixes it with a stable insertion
sort. -/
def search_papers (fts : String → Paper → Bool) (re : String → String → Option Bool)
    (cfg : SearchConfig) (papers : List Paper) : List Paper × Nat :=
  let matched := papers.filter (fun p => wherePred fts re cfg p)
  let total := matched.length
  let sorted := List.insertionSort (fun a b => orderLe cfg a b = true) matched
  ((sorted.drop cfg.offset).take cfg.limit, total)

/-! ## FacetCache: get_facets -/

/-- Distinct values in order of first appearance (the GROUP BY keys; the
model fixes the order SQLite leaves open). -/
def uniqAux {α : Type} [DecidableEq α] : List α → List α → List α
  | _, [] => []
  | seen, a :: l => if a ∈ seen then uniqAux seen l else a :: uniqAux (a :: seen) l

/-- Aggregate counts per distinct value. -/
def groupCount {α : Type} [DecidableEq α] (vals : List α) : List (α × Nat) :=
  (uniqAux [] vals).map (fun k => (k, vals.count k))

/-- Sort grouped counts descending by count (stable on ties, which SQL
leaves unspecified). -/
def sortCountDesc {α : Type} (pairs : List (α × Nat)) : List (α × Nat) :=
  List.insertionSort (fun a b => (b.2 ≤ a.2 : Bool) = true) pairs

/-- The facet snapshot returned by get_facets. -/
structure Facets where
  series : List (String × Nat)
  item_types : List (String × Nat)
  years : List (String × Nat)
  boxes : List (Int × Nat)
  models : List (String × Nat)
  languages : List (String × Nat)
  total : Nat
  deriving DecidableEq, Repr

/-- Recompute the whole facet snapshot from the Record store: counts by
series, item type, year (first four characters of date_sort when at
least four long), box, analysis model and language, plus the total row
count. -/
def compute_facets (papers : List Paper) : Facets :=
  { series := sortCountDesc (groupCount (papers.filterMap (fun p => p.series)))
    item_types := sortCountDesc (groupCount (papers.filterMap (fun p => p.item_type)))
    years := List.insertionSort (fun a b => (cmpChars a.1.data b.1.data ≠ .gt) = true)
      (groupCount (papers.filterMap (fun p =>
        p.date_sort.bind (fun d =>
          if 4 ≤ d.data.length then some (String.mk (d.data.take 4)) else none))))
    boxes := List.insertionSort (fun a b => (cmpInt a.1 b.1 ≠ .gt) = true)
      (groupCount (papers.filterMap (fun p => p.box_number)))
    models := sortCountDesc (groupCount (papers.filterMap (fun p => p.analysis_model)))
    languages := sortCountDesc (groupCount (papers.filterMap (fun p => p.language)))
    total := papers.length }

/-- The process-wide facet cache: the cached snapshot and the time it
was computed. -/
structure FacetsCache where
  cache : Option Facets := none
  time : Int := 0
  deriving DecidableEq, Repr

/-- The cache TTL of five minutes. -/
def FACETS_CACHE_TTL : Int := 300

/-- The cached facet accessor: when a snapshot exists and is younger
than the TTL it is returned unchanged, otherwise the snapshot is
recomputed from the store and the cache and timestamp replaced. -/
def get_facets (now : Int) (papers : List Paper) (st : FacetsCache) : Facets × FacetsCache :=
  let fresh :=
    let f := compute_facets papers
    (f, { cache := some f, time := now : FacetsCache })
  match st.cache with
  | some f => if now - st.time < FACETS_CACHE_TTL then (f, st) else fresh
  | none => fresh

/-! ## ReconciliationEngine: insert_missing_papers -/

/-- One row of the finding_aid table. -/
structure FindingAidEntry where
  entry_type : String
  box_number : Int
  folder_number : Option Int := none
  title : Option String := none
  series : Option String := none
  series_number : Option String := none
  is_oversize : Int := 0
  in_digital_collection : Int := 0
  deriving DecidableEq, Repr

/-- The database state the reconciliation engine acts on: the papers
table, the finding_aid table, and the AUTOINCREMENT high-water mark for
papers.id. -/
structure Db where
  papers : List Paper := []
  finding_aid : List FindingAidEntry := []
  seq : Int := 0
  deriving DecidableEq, Repr

/-- The finding-aid to catalog series-name synonym table. -/
def SERIES_MAP_apply : Option String → Option String
  | some "Carnegie Mellon Universtiy" => some "Carnegie-Mellon University"
  | some "Dissertations" => some "Student Dissertations"
  | s => s

/-- Exactly four decimal digits at the front. -/
def take4Digits : List Char → Option (List Char × List Char)
  | a :: b :: c :: d :: r =>
    if a.isDigit && b.isDigit && c.isDigit && d.isDigit then some ([a, b, c, d], r) else none
  | _ => none

/-- Attempt, at this position, the anchored date pattern of
insert_missing_papers: two dashes, optional whitespace, four digits,
optionally a dash, comma or semicolon separated second four-digit group,
then optional whitespace to the end of the string.  Returns the captured
group (first year through second year when present).  The optional
second-year branch is the regex engine's only backtracking point: when
it fails, the end-anchor is retried right after the first year. -/
def dateMatchAt (l : List Char) : Option (List Char) :=
  match l with
  | '-' :: '-' :: r1 =>
    let r2 := r1.dropWhile Char.isWhitespace
    match take4Digits r2 with
    | none => none
    | some (d1, r3) =>
      let single := if r3.dropWhile Char.isWhitespace = [] then some d1 else none
      let wsA := r3.takeWhile Char.isWhitespace
      match r3.dropWhile Char.isWhitespace with
      | sep :: r5 =>
        if sep = '-' || sep = ',' || sep = ';' then
          let wsB := r5.takeWhile Char.isWhitespace
          match take4Digits (r5.dropWhile Char.isWhitespace) with
          | some (d2, r7) =>
            if r7.dropWhile Char.isWhitespace = [] then
              some (d1 ++ wsA ++ sep :: wsB ++ d2)
            else single
          | none => single
        else single
      | [] => single
  | _ => none

/-- Leftmost search for the anchored date pattern, as re.search scans
candidate start positions left to right. -/
def extract_date : List Char → Option (List Char)
  | [] => none
  | c :: r =>
    match dateMatchAt (c :: r) with
    | some g => some g
    | none => extract_date r

/-- Case-sensitive test that pat begins the string (str.startswith). -/
def startsWithL : List Char → List Char → Bool
  | [], _ => true
  | _ :: _, [] => false
  | a :: x, b :: y => a = b && startsWithL x y

/-- Split off everything before the first occurrence of sep, and the
remainder after it; none when sep does not occur. -/
def splitFirstSep (sep : List Char) : List Char → Option (List Char × List Char)
  | [] => none
  | c :: r =>
    if startsWithL sep (c :: r) then some ([], (c :: r).drop sep.length)
    else (splitFirstSep sep r).map (fun ab => (c :: ab.1, ab.2))

/-- Python str.split with an explicit separator, fuelled by the input
length (every split consumes at least the separator). -/
def splitSepFuel (sep : List Char) : Nat → List Char → List (List Char)
  | 0, l => [l]
  | f + 1, l =>
    match splitFirstSep sep l with
    | none => [l]
    | some (a, b) => a :: splitSepFuel sep f b

/-- Split a description on the triple-dash delimiter. -/
def pySplitSep (sep l : List Char) : List (List Char) := splitSepFuel sep l.length l

/-- The ordered description-keyword to item_type table, in the insertion
order of the Python dict. -/
def ITEM_TYPE_KEYWORDS : List (String × String) :=
  [("Article", "article"), ("Book Review", "review"), ("Book Chapter", "chapter"),
   ("Manuscript", "article"), ("Paper", "article"), ("Report", "article"),
   ("Cassette Tapes", "recording"), ("Computer Discs", "media"),
   ("Photographs", "photograph"), ("Diploma", "award"), ("Medal", "award"),
   ("Plaque", "award"), ("Certificate", "award")]

/-- Infer the item type from a description: split on the delimiter, skip
the first two segments, and return the type of the first keyword that
begins a stripped remaining segment (first match wins, scanning stops on
the first hit). -/
def infer_item_type (title : List Char) : Option String :=
  let parts := pySplitSep " -- ".data title
  (parts.drop 2).findSome? (fun part =>
    ITEM_TYPE_KEYWORDS.findSome? (fun kt =>
      if startsWithL kt.1.data (pyStrip part) then some kt.2 else none))

/-- The placeholder Record synthesized for one missing folder entry:
node_id is the negated folder number, the title falls back to a label
when the description is absent or empty, the date and its sort key come
from the anchored trailing-year pattern, the series is remapped through
the synonym table, and the coverage flag is not_digitized. -/
def mkPlaceholder (pid ff : Int) (e : FindingAidEntry) : Paper :=
  let fallback := "FF" ++ toString ff ++ " (not digitized)"
  let t :=
    match e.title with
    | none => fallback
    | some s => if s = "" then fallback else s
  let dm := extract_date t.data
  { id := pid
    node_id := -ff
    title := t
    date := dm.map (fun g => String.mk (pyStrip g))
    date_sort := dm.map (fun g => String.mk ((pyStrip g).take 4))
    series := SERIES_MAP_apply e.series
    item_type := infer_item_type t.data
    box_number := some e.box_number
    folder_number := some ff
    ocr_status := some "not_digitized" }

/-- Does this row survive the initial DELETE of placeholder records? -/
def notPlaceholder (p : Paper) : Bool := !(p.ocr_status = some "not_digitized")

/-- The folder entries outside the digital collection, ordered by box
then folder number. -/
def missingRows (fa : List FindingAidEntry) : List FindingAidEntry :=
  List.insertionSort
    (fun a b =>
      (((cmpInt a.box_number b.box_number).then
        (cmpOptInt a.folder_number b.folder_number)) ≠ .gt) = true)
    (fa.filter (fun e => e.entry_type = "folder" && e.in_digital_collection = 0))

/-- The insertion loop: one INSERT per missing folder row.  A node_id
collision raises IntegrityError, which the code catches and skips; a
folder row with a NULL folder number makes the negation raise TypeError,
aborting the whole call (modelled by none). -/
def insertLoop : List Paper → Int → Nat → List FindingAidEntry → Option (List Paper × Int × Nat)
  | cur, seq, cnt, [] => some (cur, seq, cnt)
  | cur, seq, cnt, e :: rest =>
    match e.folder_number with
    | none => none
    | some ff =>
      let p := mkPlaceholder (seq + 1) ff e
      if cur.any (fun q => q.node_id = p.node_id) then insertLoop cur seq cnt rest
      else insertLoop (cur ++ [p]) (seq + 1) (cnt + 1) rest

/-- The placeholder synthesis step: delete every record flagged
not_digitized, then insert one placeholder per folder entry outside the
digital collection, returning the new state and the count inserted. -/
def insert_missing_papers (db : Db) : Option (Db × Nat) :=
  let survivors := db.papers.filter notPlaceholder
  match insertLoop survivors db.seq 0 (missingRows db.finding_aid) with
  | none => none
  | some (ps, seq', cnt) =>
    some ({ papers := ps, finding_aid := db.finding_aid, seq := seq' }, cnt)

/-- Erase the store-assigned AUTOINCREMENT id, leaving the caller-visible
fields of a record. -/
def eraseId (p : Paper) : Paper := { p with id := 0 }

/-! ## Concrete fixtures used by examples, witnesses and counterexamples -/

/-- A trivial FTS oracle. -/
def fxFts : String → Paper → Bool := fun _ _ => false

/-- A regex engine that raises on every call, as an uncompilable pattern
makes the re module do. -/
def fxReFail : String → String → Option Bool := fun _ _ => none

/-- Record at archive address (1,1,1,1). -/
def fxArch1 : Paper :=
  { id := 1, node_id := 11, title := "doc one", box_number := some 1,
    folder_number := some 1, bundle_number := some 1, document_number := some 1 }

/-- Record at archive address (1,1,1,2). -/
def fxArch2 : Paper :=
  { id := 2, node_id := 12, title := "doc two", box_number := some 1,
    folder_number := some 1, bundle_number := some 1, document_number := some 2 }

/-- Ascending archive-order search configuration. -/
def fxCfgArchAsc : SearchConfig := { sort_by := "archive_order", sort_order := "ASC" }

/-- Descending archive-order search configuration. -/
def fxCfgArchDesc : SearchConfig := { sort_by := "archive_order", sort_order := "DESC" }

/-- The finding-aid folder entry of the end-to-end reconciliation
example: box 12, folder 5, an article from 1975. -/
def fxEntry125 : FindingAidEntry :=
  { entry_type := "folder", box_number := 12, folder_number := some 5,
    title := some "Simon, Herbert A. -- Series I -- Article -- 1975",
    series := some "Personal Papers" }

/-- A database holding only the finding-aid entry of the end-to-end
example. -/
def fxDb125 : Db := { papers := [], finding_aid := [fxEntry125], seq := 0 }

/-- The state produced by running placeholder synthesis on the
end-to-end example database. -/
def fxDbRun : Db :=
  { papers := [mkPlaceholder 1 5 fxEntry125], finding_aid := [fxEntry125], seq := 1 }

/-- A database exhibiting the edge cases of placeholder synthesis: two
missing folder entries sharing folder number 0 in different boxes, a
third missing entry whose negated folder number collides with a real
record's node_id, and that real (digitized) record. -/
def fxDbClash : Db :=
  { papers := [{ id := 7, node_id := -5, title := "real item", ocr_status := some "completed" }]
    finding_aid :=
      [{ entry_type := "folder", box_number := 1, folder_number := some 0 },
       { entry_type := "folder", box_number := 2, folder_number := some 0 },
       { entry_type := "folder", box_number := 3, folder_number := some 5 }]
    seq := 7 }

/-- A record whose tag set is a and b, JSON-encoded. -/
def fxTagRec : Paper :=
  { id := 3, node_id := 30, title := "tagged", tags := some (encTags ["a", "b"]) }

/-- A search requiring the quote-smuggling tag value. -/
def fxTagCfg : SearchConfig := { tags := some ["a\", \"b"] }

/-- A record tagged ai, economics and cmu. -/
def fxRecAI3 : Paper :=
  { id := 4, node_id := 40, title := "r1", tags := some (encTags ["ai", "economics", "cmu"]) }

/-- A record tagged only ai. -/
def fxRecAI1 : Paper :=
  { id := 5, node_id := 50, title := "r2", tags := some (encTags ["ai"]) }

/-! ## General helper lemmas -/

/-- Splitting a filtered count along a second Boolean attribute. -/
theorem length_filter_split {α : Type} (l : List α) (p q : α → Bool) :
    (l.filter p).length
      = (l.filter (fun a => p a && q a)).length
        + (l.filter (fun a => p a && !q a)).length := by
  induction l with
  | nil => rfl
  | cons a l ih =>
    by_cases hp : p a
    · by_cases hq : q a <;>
        simp [List.filter_cons, hp, hq, ih] <;> omega
    · simp only [Bool.not_eq_true] at hp
      simp [List.filter_cons, hp, ih]

/-! ## Claim theorems -/

/-- C3: the query compiler on the five documented inputs.  The first
four examples compile exactly as documented; on the parenthesized input
the code joins every emitted token, parentheses included, with single
spaces, so it returns a differently spaced string than the one its own
docstring promises. -/
theorem C3_build_fts_query_examples :
    build_fts_query "simon carnegie" = "\"simon\" AND \"carnegie\""
    ∧ build_fts_query "simon OR newell" = "\"simon\" OR \"newell\""
    ∧ build_fts_query "simon NOT chess" = "\"simon\" NOT \"chess\""
    ∧ build_fts_query "\"bounded rationality\"" = "\"bounded rationality\""
    ∧ build_fts_query "(simon OR newell) AND AI" = "( \"simon\" OR \"newell\" ) AND \"AI\""
    ∧ build_fts_query "(simon OR newell) AND AI" ≠ "(\"simon\" OR \"newell\") AND \"AI\"" := by
  refine ⟨by decide, by decide, by decide, by decide, by decide, by decide⟩

/-- C5: the coverage modes partition the result set: for any fixed
combination of the remaining filters, the digitized predicate is the all
predicate minus the placeholder flag, the missing predicate is the all
predicate restricted to it, the two are disjoint and exhaust the all
mode, and the total counts add up. -/
theorem C5_coverage_partition (fts : String → Paper → Bool)
    (re : String → String → Option Bool) (cfg : SearchConfig) (papers : List Paper) :
    (search_papers fts re { cfg with include_coverage := "all" } papers).2
      = (search_papers fts re { cfg with include_coverage := "digitized" } papers).2
        + (search_papers fts re { cfg with include_coverage := "missing" } papers).2
    ∧ (∀ p, wherePred fts re { cfg with include_coverage := "digitized" } p
          = (wherePred fts re { cfg with include_coverage := "all" } p && !isMissingRec p))
    ∧ (∀ p, wherePred fts re { cfg with include_coverage := "missing" } p
          = (wherePred fts re { cfg with include_coverage := "all" } p && isMissingRec p))
    ∧ (∀ p, ¬(wherePred fts re { cfg with include_coverage := "digitized" } p = true
          ∧ wherePred fts re { cfg with include_coverage := "missing" } p = true))
    ∧ (∀ p, wherePred fts re { cfg with include_coverage := "all" } p
          = (wherePred fts re { cfg with include_coverage := "digitized" } p
            || wherePred fts re { cfg with include_coverage := "missing" } p)) := by
  have hdig : ∀ p, coveragePred "digitized" p = !isMissingRec p := by
    intro p
    unfold coveragePred isMissingRec
    rw [if_pos rfl]
    cases p.ocr_status with
    | none => rfl
    | some s => simp
  have hmiss : ∀ p, coveragePred "missing" p = isMissingRec p := by
    intro p
    unfold coveragePred
    rw [if_neg (by decide), if_pos rfl]
  have hall : ∀ p, coveragePred "all" p = true := by
    intro p
    unfold coveragePred
    rw [if_neg (by decide), if_neg (by decide)]
  have keyD : ∀ b1 b2 b3 b4 b5 b6 b7 b8 b9 m b11 : Bool,
      (b1 && b2 && b3 && b4 && b5 && b6 && b7 && b8 && b9 && !m && b11)
        = ((b1 && b2 && b3 && b4 && b5 && b6 && b7 && b8 && b9 && true && b11) && !m) := by
    decide
  have keyM : ∀ b1 b2 b3 b4 b5 b6 b7 b8 b9 m b11 : Bool,
      (b1 && b2 && b3 && b4 && b5 && b6 && b7 && b8 && b9 && m && b11)
        = ((b1 && b2 && b3 && b4 && b5 && b6 && b7 && b8 && b9 && true && b11) && m) := by
    decide
  have h2 : ∀ p, wherePred fts re { cfg with include_coverage := "digitized" } p
      = (wherePred fts re { cfg with include_coverage := "all" } p && !isMissingRec p) := by
    intro p
    show (_ && _ && _ && _ && _ && _ && _ && _ && _ && coveragePred "digitized" p && _)
      = ((_ && _ && _ && _ && _ && _ && _ && _ && _ && coveragePred "all" p && _) && _)
    rw [hdig p, hall p]
    exact keyD _ _ _ _ _ _ _ _ _ _ _
  have h3 : ∀ p, wherePred fts re { cfg with include_coverage := "missing" } p
      = (wherePred fts re { cfg with include_coverage := "all" } p && isMissingRec p) := by
    intro p
    show (_ && _ && _ && _ && _ && _ && _ && _ && _ && coveragePred "missing" p && _)
      = ((_ && _ && _ && _ && _ && _ && _ && _ && _ && coveragePred "all" p && _) && _)
    rw [hmiss p, hall p]
    exact keyM _ _ _ _ _ _ _ _ _ _ _
  refine ⟨?_, h2, h3, ?_, ?_⟩
  · show (papers.filter _).length = (papers.filter _).length + (papers.filter _).length
    rw [List.filter_congr (fun p _ => h2 p), List.filter_congr (fun p _ => h3 p)]
    rw [length_filter_split papers
      (fun p => wherePred fts re { cfg with include_coverage := "all" } p) isMissingRec]
    omega
  · rintro p ⟨ha, hb⟩
    rw [h2 p] at ha
    rw [h3 p] at hb
    simp only [Bool.and_eq_true] at ha hb
    rw [hb.2] at ha
    exact absurd ha.2 (by decide)
  · intro p
    rw [h2 p, h3 p]
    cases wherePred fts re { cfg with include_coverage := "all" } p <;>
      cases isMissingRec p <;> rfl

/-- C6: a regex-mode search whose pattern makes the engine raise on
every evaluation (for instance a pattern that fails to compile) returns
the empty result set and a zero count rather than an error, and any
individual record on whose title and body the engine raises is treated
as non-matching. -/
theorem C6_regex_error_degrades (fts : String → Paper → Bool)
    (re : String → String → Option Bool) (cfg : SearchConfig) (q : String)
    (papers : List Paper) (hmode : cfg.use_regex = true) (hq : cfg.query = some q)
    (hne : q ≠ "") (hfail : ∀ s, re q s = none) :
    search_papers fts re cfg papers = ([], 0)
    ∧ ∀ (re' : String → String → Option Bool) (p : Paper), re' q p.title = none →
        (∀ t, p.text_content = some t → re' q t = none) →
        wherePred fts re' cfg p = false := by
  have hrec : ∀ (re' : String → String → Option Bool) (p : Paper), re' q p.title = none →
      (∀ t, p.text_content = some t → re' q t = none) →
      wherePred fts re' cfg p = false := by
    intro re' p h1 h2
    have hqf : queryPred fts re' cfg p = false := by
      simp only [queryPred, hq]
      rw [if_neg hne, if_pos hmode]
      have e1 : regexpFn re' q (some p.title) = false := by
        simp [regexpFn, h1]
      have e2 : regexpFn re' q p.text_content = false := by
        cases ht : p.text_content with
        | none => rfl
        | some t => simp [regexpFn, h2 t ht]
      rw [e1, e2]
      rfl
    unfold wherePred
    rw [hqf]
    rfl
  refine ⟨?_, hrec⟩
  have hfil : papers.filter (fun p => wherePred fts re cfg p) = [] := by
    rw [List.filter_eq_nil_iff]
    intro p _
    rw [hrec re p (hfail p.title) (fun t _ => hfail t)]
    exact Bool.false_ne_true
  show ((List.insertionSort _ (papers.filter _)).drop _ |>.take _ ,
    (papers.filter _).length) = ([], 0)
  rw [hfil]
  simp

/-- C10: in fuzzy mode a query every one of whose whitespace-separated
words is shorter than two characters contributes no text predicate, so
the search returns exactly what the structured filters alone return,
results and total count alike. -/
theorem C10_fuzzy_short_query_ignored (fts : String → Paper → Bool)
    (re : String → String → Option Bool) (cfg : SearchConfig) (q : String)
    (papers : List Paper) (hq : cfg.query = some q) (hrx : cfg.use_regex = false)
    (hfz : cfg.fuzzy = true)
    (hshort : (pyWords q.data).all (fun w => w.length < 2) = true) :
    search_papers fts re cfg papers = search_papers fts re { cfg with query := none } papers := by
  have hqp : ∀ p, queryPred fts re cfg p = true := by
    intro p
    simp only [queryPred, hq]
    by_cases hq0 : q = ""
    · rw [if_pos hq0]
    · rw [if_neg hq0, if_neg (by simp [hrx]), if_pos hfz]
      have hnil : (pyWords q.data).filter (fun w => 2 ≤ w.length) = [] := by
        rw [List.filter_eq_nil_iff]
        intro w hw
        have := List.all_eq_true.mp hshort w hw
        simp only [decide_eq_true_eq] at this ⊢
        omega
      simp [hnil]
  have hwp : ∀ p, wherePred fts re cfg p
      = wherePred fts re { cfg with query := none } p := by
    intro p
    unfold wherePred
    rw [hqp p]
    rfl
  show ((List.insertionSort _ (papers.filter _)).drop _ |>.take _ ,
      (papers.filter _).length)
    = ((List.insertionSort _ (papers.filter _)).drop _ |>.take _ ,
      (papers.filter _).length)
  rw [List.filter_congr (fun p _ => hwp p)]
  rfl

/-- Swapping distributes over the lexicographic combination of
orderings. -/
theorem then_swap (a b : Ordering) : (a.then b).swap = a.swap.then b.swap := by
  cases a <;> rfl

/-- Integer comparison is antisymmetric. -/
theorem cmpInt_antisym (a b : Int) : cmpInt b a = (cmpInt a b).swap := by
  unfold cmpInt
  split_ifs <;> first | rfl | omega

/-- Nullable integer comparison is antisymmetric. -/
theorem cmpOptInt_antisym (a b : Option Int) : cmpOptInt b a = (cmpOptInt a b).swap := by
  cases a <;> cases b <;> first | rfl | exact cmpInt_antisym _ _

/-- C7: facet staleness is bounded by the TTL alone.  While the cache is
younger than the TTL every call returns the cached snapshot bit for bit
and leaves the state untouched, whatever has happened to the Record
store in between; once the TTL has elapsed a call recomputes the
snapshot from the current store and replaces cache and timestamp.
Record writes never proactively invalidate the cache. -/
theorem C7_facets_ttl_staleness (st : FacetsCache) (f : Facets) (t0 t1 t2 t3 : Int)
    (papers1 papers2 papers3 : List Paper) (hc : st.cache = some f) (ht : st.time = t0)
    (h1 : t1 - t0 < FACETS_CACHE_TTL) (h2 : t2 - t0 < FACETS_CACHE_TTL)
    (h3 : FACETS_CACHE_TTL ≤ t3 - t0) :
    get_facets t1 papers1 st = (f, st)
    ∧ get_facets t2 papers2 st = (f, st)
    ∧ get_facets t3 papers3 st
        = (compute_facets papers3,
           { cache := some (compute_facets papers3), time := t3 }) := by
  refine ⟨?_, ?_, ?_⟩
  · simp only [get_facets, hc, ht]
    rw [if_pos h1]
  · simp only [get_facets, hc, ht]
    rw [if_pos h2]
  · simp only [get_facets, hc, ht]
    rw [if_neg (by omega)]

/-- C9: sorting by the archive-order composite compares the four-part
address lexicographically; the descending direction is the exact
componentwise swap, hence the exact reversal, of the ascending
comparison; concretely address (1,1,1,1) sorts before (1,1,1,2)
ascending and after it descending; and a sort field outside the
allow-list silently falls back to the date_sort default. -/
theorem C9_archive_order_sorting (fts : String → Paper → Bool)
    (re : String → String → Option Bool) (cfg : SearchConfig) (a b : Paper) (s : String)
    (papers : List Paper) (hs : valid_sort_columns.contains s = false) :
    orderCmp { cfg with sort_by := "archive_order", sort_order := "DESC" } a b
      = (orderCmp { cfg with sort_by := "archive_order", sort_order := "ASC" } a b).swap
    ∧ orderLe { cfg with sort_by := "archive_order", sort_order := "DESC" } a b
      = orderLe { cfg with sort_by := "archive_order", sort_order := "ASC" } b a
    ∧ search_papers fts re { cfg with sort_by := s } papers
      = search_papers fts re { cfg with sort_by := "date_sort" } papers
    ∧ search_papers fxFts fxReFail fxCfgArchAsc [fxArch2, fxArch1] = ([fxArch1, fxArch2], 2)
    ∧ search_papers fxFts fxReFail fxCfgArchDesc [fxArch2, fxArch1] = ([fxArch2, fxArch1], 2) := by
  have harch : ∀ (c : SearchConfig) (x y : Paper), c.sort_by = "archive_order" →
      orderCmp c x y
        = (applyDir (isDescOrder c) (cmpOptInt x.box_number y.box_number)).then
            ((applyDir (isDescOrder c) (cmpOptInt x.folder_number y.folder_number)).then
              ((applyDir (isDescOrder c) (cmpOptInt x.bundle_number y.bundle_number)).then
                (applyDir (isDescOrder c) (cmpOptInt x.document_number y.document_number)))) := by
    intro c x y h
    unfold orderCmp
    rw [if_pos h]
  have hswap : orderCmp { cfg with sort_by := "archive_order", sort_order := "DESC" } a b
      = (orderCmp { cfg with sort_by := "archive_order", sort_order := "ASC" } a b).swap := by
    rw [harch _ a b rfl, harch _ a b rfl]
    rw [show isDescOrder { cfg with sort_by := "archive_order", sort_order := "DESC" } = true
      from rfl]
    rw [show isDescOrder { cfg with sort_by := "archive_order", sort_order := "ASC" } = false
      from rfl]
    simp only [applyDir]
    rw [then_swap, then_swap, then_swap]
  have hrev : orderCmp { cfg with sort_by := "archive_order", sort_order := "ASC" } a b
      = (orderCmp { cfg with sort_by := "archive_order", sort_order := "ASC" } b a).swap := by
    rw [harch _ a b rfl, harch _ b a rfl]
    rw [show isDescOrder { cfg with sort_by := "archive_order", sort_order := "ASC" } = false
      from rfl]
    simp only [applyDir]
    rw [then_swap, then_swap, then_swap,
      cmpOptInt_antisym b.box_number a.box_number,
      cmpOptInt_antisym b.folder_number a.folder_number,
      cmpOptInt_antisym b.bundle_number a.bundle_number,
      cmpOptInt_antisym b.document_number a.document_number]
  refine ⟨hswap, ?_, ?_, by decide, by decide⟩
  · unfold orderLe
    rw [hswap, hrev, Ordering.swap_swap]
  · have hne : s ≠ "archive_order" := by
      intro h
      subst h
      rw [show valid_sort_columns.contains "archive_order" = true from by decide] at hs
      exact absurd hs (by decide)
    have hbranch : ∀ (c : SearchConfig) (x y : Paper), c.sort_by ≠ "archive_order" →
        orderCmp c x y
          = applyDir (isDescOrder c)
              (colCmp (if valid_sort_columns.contains c.sort_by then c.sort_by else "date_sort")
                x y) := by
      intro c x y h
      unfold orderCmp
      rw [if_neg h]
    have hcol : orderLe { cfg with sort_by := s }
        = orderLe { cfg with sort_by := "date_sort" } := by
      funext x y
      have h1 : orderCmp { cfg with sort_by := s } x y
          = orderCmp { cfg with sort_by := "date_sort" } x y := by
        have hcols : (if valid_sort_columns.contains
              ({ cfg with sort_by := s } : SearchConfig).sort_by
            then ({ cfg with sort_by := s } : SearchConfig).sort_by else "date_sort")
            = (if valid_sort_columns.contains
              ({ cfg with sort_by := "date_sort" } : SearchConfig).sort_by
            then ({ cfg with sort_by := "date_sort" } : SearchConfig).sort_by
            else "date_sort") := by
          show (if valid_sort_columns.contains s then s else "date_sort")
              = (if valid_sort_columns.contains "date_sort" then "date_sort" else "date_sort")
          rw [hs]
          exact rfl
        rw [hbranch { cfg with sort_by := s } x y hne,
          hbranch { cfg with sort_by := "date_sort" } x y
            (show ("date_sort" : String) ≠ "archive_order" from by decide),
          hcols]
        exact rfl
      unfold orderLe
      rw [h1]
    show ((List.insertionSort _ (papers.filter _)).drop _ |>.take _ ,
        (papers.filter _).length)
      = ((List.insertionSort _ (papers.filter _)).drop _ |>.take _ ,
        (papers.filter _).length)
    rw [hcol]
    rfl

/-- Filtering is idempotent. -/
theorem filter_idem {α : Type} (p : α → Bool) (l : List α) :
    (l.filter p).filter p = l.filter p := by
  induction l with
  | nil => rfl
  | cons a l ih =>
    by_cases h : p a
    · simp [List.filter_cons, h, ih]
    · simp only [Bool.not_eq_true] at h
      simp [List.filter_cons, h, ih]

/-- Every synthesized placeholder carries the not_digitized flag, so the
initial DELETE of the next run removes it. -/
theorem notPlaceholder_mkPlaceholder (pid ff : Int) (e : FindingAidEntry) :
    notPlaceholder (mkPlaceholder pid ff e) = false := rfl

/-- The external id of a synthesized placeholder is the negated folder
number. -/
theorem node_id_mkPlaceholder (pid ff : Int) (e : FindingAidEntry) :
    (mkPlaceholder pid ff e).node_id = -ff := rfl

/-- Placeholders synthesized at different primary keys agree after the
key is erased. -/
theorem eraseId_mkPlaceholder (pid ff : Int) (e : FindingAidEntry) :
    eraseId (mkPlaceholder pid ff e) = mkPlaceholder 0 ff e := rfl

/-- The insertion loop only adds flagged placeholders: the surviving
(digitized) rows after the loop are the surviving rows before it. -/
theorem insertLoop_filter : ∀ (rows : List FindingAidEntry) (cur : List Paper) (seq : Int)
    (cnt : Nat) (ps : List Paper) (s' : Int) (c' : Nat),
    insertLoop cur seq cnt rows = some (ps, s', c') →
    ps.filter notPlaceholder = cur.filter notPlaceholder := by
  intro rows
  induction rows with
  | nil =>
    intro cur seq cnt ps s' c' h
    simp only [insertLoop, Option.some.injEq, Prod.mk.injEq] at h
    obtain ⟨rfl, -, -⟩ := h
    rfl
  | cons e rest ih =>
    intro cur seq cnt ps s' c' h
    simp only [insertLoop] at h
    cases hff : e.folder_number with
    | none =>
      simp only [hff] at h
      exact Option.noConfusion h
    | some ff =>
      simp only [hff] at h
      by_cases hcol :
          cur.any (fun q => q.node_id = (mkPlaceholder (seq + 1) ff e).node_id) = true
      · rw [if_pos hcol] at h
        exact ih cur seq cnt ps s' c' h
      · rw [if_neg hcol] at h
        rw [ih _ _ _ _ _ _ h, List.filter_append]
        simp [notPlaceholder_mkPlaceholder]

/-- Membership in a node_id collision check only depends on the
key-erased rows. -/
theorem any_node_id_erase (cur₁ cur₂ : List Paper) (x : Int)
    (h : cur₁.map eraseId = cur₂.map eraseId) :
    cur₁.any (fun q => q.node_id = x) = cur₂.any (fun q => q.node_id = x) := by
  have e1 : cur₁.any (fun q => q.node_id = x)
      = (cur₁.map eraseId).any (fun q => q.node_id = x) := by
    rw [List.any_map]
    rfl
  have e2 : cur₂.any (fun q => q.node_id = x)
      = (cur₂.map eraseId).any (fun q => q.node_id = x) := by
    rw [List.any_map]
    rfl
  rw [e1, e2, h]

/-- Two insertion loops over the same rows starting from key-erased
equal tables and arbitrary AUTOINCREMENT marks produce key-erased equal
tables and the same count. -/
theorem insertLoop_agree : ∀ (rows : List FindingAidEntry) (cur₁ cur₂ : List Paper)
    (s₁ s₂ : Int) (cnt : Nat), cur₁.map eraseId = cur₂.map eraseId →
    (insertLoop cur₁ s₁ cnt rows).map (fun r => (r.1.map eraseId, r.2.2))
      = (insertLoop cur₂ s₂ cnt rows).map (fun r => (r.1.map eraseId, r.2.2)) := by
  intro rows
  induction rows with
  | nil =>
    intro cur₁ cur₂ s₁ s₂ cnt h
    simp only [insertLoop, Option.map]
    rw [h]
  | cons e rest ih =>
    intro cur₁ cur₂ s₁ s₂ cnt h
    cases hff : e.folder_number with
    | none => simp only [insertLoop, hff]
    | some ff =>
      simp only [insertLoop, hff]
      rw [node_id_mkPlaceholder (s₁ + 1) ff e, node_id_mkPlaceholder (s₂ + 1) ff e]
      have hany := any_node_id_erase cur₁ cur₂ (-ff) h
      by_cases hcol : (cur₁.any fun q => q.node_id = -ff) = true
      · rw [if_pos hcol, if_pos (by rw [← hany]; exact hcol)]
        exact ih cur₁ cur₂ s₁ s₂ cnt h
      · rw [if_neg hcol, if_neg (by rw [← hany]; exact hcol)]
        refine ih _ _ _ _ _ ?_
        rw [List.map_append, List.map_append, h]
        simp [eraseId_mkPlaceholder]

/-- C1: placeholder synthesis is idempotent.  When a run succeeds, a
second run on the resulting state succeeds with the same count and
leaves the papers table identical up to the store-assigned primary keys
(the finding-aid table is untouched), because each run first deletes
every not_digitized record and regenerates the placeholders from the
unchanged folder entries. -/
theorem C1_insert_missing_papers_idempotent (db db₁ : Db) (n₁ : Nat)
    (h : insert_missing_papers db = some (db₁, n₁)) :
    ∃ db₂, insert_missing_papers db₁ = some (db₂, n₁)
      ∧ db₂.papers.map eraseId = db₁.papers.map eraseId
      ∧ db₂.finding_aid = db₁.finding_aid := by
  unfold insert_missing_papers at h
  cases hl : insertLoop (db.papers.filter notPlaceholder) db.seq 0 (missingRows db.finding_aid)
    with
  | none =>
    simp only [hl] at h
    exact Option.noConfusion h
  | some r =>
    obtain ⟨ps, s', cnt⟩ := r
    simp only [hl, Option.some.injEq, Prod.mk.injEq] at h
    obtain ⟨hdb, hn⟩ := h
    subst hn
    subst hdb
    have hsurv : ps.filter notPlaceholder = db.papers.filter notPlaceholder := by
      rw [insertLoop_filter _ _ _ _ _ _ _ hl, filter_idem]
    have hagree := insertLoop_agree (missingRows db.finding_aid)
      (ps.filter notPlaceholder) (db.papers.filter notPlaceholder) s' db.seq 0
      (by rw [hsurv])
    rw [hl] at hagree
    cases hl₂ : insertLoop (ps.filter notPlaceholder) s' 0 (missingRows db.finding_aid) with
    | none =>
      rw [hl₂] at hagree
      cases hagree
    | some r₂ =>
      obtain ⟨ps₂, s₂, c₂⟩ := r₂
      rw [hl₂] at hagree
      simp only [Option.map, Option.some.injEq, Prod.mk.injEq] at hagree
      obtain ⟨hps, hc⟩ := hagree
      refine ⟨{ papers := ps₂, finding_aid := db.finding_aid, seq := s₂ }, ?_, ?_, rfl⟩
      · simp only [insert_missing_papers, hl₂]
        rw [hc]
      · exact hps

/-- When no row of the remaining loop input carries a given folder
number, the loop does not change the set of records with the
corresponding negated node id. -/
theorem insertLoop_filter_ff : ∀ (rows : List FindingAidEntry) (cur : List Paper) (seq : Int)
    (cnt : Nat) (ps : List Paper) (s' : Int) (c' : Nat) (ff : Int),
    insertLoop cur seq cnt rows = some (ps, s', c') →
    rows.filter (fun r => r.folder_number = some ff) = [] →
    ps.filter (fun p => p.node_id = -ff) = cur.filter (fun p => p.node_id = -ff) := by
  intro rows
  induction rows with
  | nil =>
    intro cur seq cnt ps s' c' ff h _
    simp only [insertLoop, Option.some.injEq, Prod.mk.injEq] at h
    obtain ⟨rfl, -, -⟩ := h
    rfl
  | cons r rest ih =>
    intro cur seq cnt ps s' c' ff h honce
    simp only [List.filter_cons] at honce
    cases hg : r.folder_number with
    | none =>
      simp only [insertLoop, hg] at h
      exact Option.noConfusion h
    | some g =>
      simp only [insertLoop, hg] at h
      have hgff : ¬(g = ff) := by
        intro hgf
        subst hgf
        rw [hg] at honce
        simp at honce
      rw [hg] at honce
      have hpred : (decide (some g = some ff)) = false := by
        simp [hgff]
      rw [hpred] at honce
      simp only [Bool.false_eq_true, if_false] at honce
      by_cases hcol :
          (cur.any fun q => q.node_id = (mkPlaceholder (seq + 1) g r).node_id) = true
      · rw [if_pos hcol] at h
        exact ih cur seq cnt ps s' c' ff h honce
      · rw [if_neg hcol] at h
        rw [ih _ _ _ _ _ _ _ h honce, List.filter_append]
        have hnode : (mkPlaceholder (seq + 1) g r).node_id = -g := rfl
        have hfalse : List.filter (fun p => decide (p.node_id = -ff))
            [mkPlaceholder (seq + 1) g r] = [] := by
          simp [hnode]
          omega
        rw [hfalse, List.append_nil]

/-- A loop input holding exactly one row with a given folder number, run
against a table with no colliding node id, creates exactly one record
with the negated folder number, and that record is the placeholder
synthesized from that row. -/
theorem insertLoop_creates_one : ∀ (rows : List FindingAidEntry) (cur : List Paper) (seq : Int)
    (cnt : Nat) (ps : List Paper) (s' : Int) (c' : Nat) (e : FindingAidEntry) (ff : Int),
    insertLoop cur seq cnt rows = some (ps, s', c') →
    rows.filter (fun r => r.folder_number = some ff) = [e] →
    cur.all (fun p => !(p.node_id = -ff)) = true →
    (ps.filter (fun p => p.node_id = -ff)).map eraseId = [mkPlaceholder 0 ff e] := by
  intro rows
  induction rows with
  | nil =>
    intro cur seq cnt ps s' c' e ff h honce hall
    simp at honce
  | cons r rest ih =>
    intro cur seq cnt ps s' c' e ff h honce hall
    have hculf : cur.filter (fun p => p.node_id = -ff) = [] := by
      rw [List.filter_eq_nil_iff]
      intro p hp
      have := List.all_eq_true.mp hall p hp
      simp at this ⊢
      exact this
    simp only [List.filter_cons] at honce
    cases hg : r.folder_number with
    | none =>
      simp only [insertLoop, hg] at h
      exact Option.noConfusion h
    | some g =>
      simp only [insertLoop, hg] at h
      rw [hg] at honce
      by_cases hgff : g = ff
      · subst hgff
        rw [show (decide (some g = some g)) = true from by simp] at honce
        simp only [if_true] at honce
        obtain ⟨rfl, hrest⟩ := List.cons.injEq r _ e _ |>.mp honce |>.imp id id
        have hnocol : ¬((cur.any fun q => q.node_id = (mkPlaceholder (seq + 1) g r).node_id)
            = true) := by
          rw [show (mkPlaceholder (seq + 1) g r).node_id = -g from rfl]
          intro hc
          obtain ⟨p, hp, hpn⟩ := List.any_eq_true.mp hc
          have := List.all_eq_true.mp hall p hp
          simp at this hpn
          exact this hpn
        rw [if_neg hnocol] at h
        rw [insertLoop_filter_ff _ _ _ _ _ _ _ _ h hrest, List.filter_append, hculf]
        have hnode : (mkPlaceholder (seq + 1) g r).node_id = -g := rfl
        simp [hnode, eraseId_mkPlaceholder]
      · have hpred : (decide (some g = some ff)) = false := by
          simp [hgff]
        rw [hpred] at honce
        simp only [Bool.false_eq_true, if_false] at honce
        by_cases hcol :
            (cur.any fun q => q.node_id = (mkPlaceholder (seq + 1) g r).node_id) = true
        · rw [if_pos hcol] at h
          exact ih cur seq cnt ps s' c' e ff h honce hall
        · rw [if_neg hcol] at h
          refine ih _ _ _ _ _ _ _ _ h honce ?_
          rw [List.all_append, hall]
          have hnode : (mkPlaceholder (seq + 1) g r).node_id = -g := rfl
          simp [hnode]
          omega

/-- C2 counterexample: on a table whose missing folder entries carry a
zero folder number twice and a folder number whose negation collides
with a surviving record's node id, the synthesis step creates one single
placeholder for three missing entries, and that placeholder's external
id is 0, which is not negative. -/
theorem C2_counterexample :
    (missingRows fxDbClash.finding_aid).length = 3
    ∧ (insert_missing_papers fxDbClash).map (fun r => r.2) = some 1
    ∧ (insert_missing_papers fxDbClash).map
        (fun r => (r.1.papers.filter (fun p => isMissingRec p)).map (fun p => p.node_id))
      = some [0] := by
  refine ⟨by decide, by decide, by decide⟩

/-- C2 (amended): provided the missing folder entries carry exactly one
row with the given folder number, the folder number is positive, and no
surviving record's node id equals its negation, placeholder synthesis
creates exactly one record with that negated folder number, namely the
placeholder synthesized from the entry: external id equal to the negated
(hence negative) folder number, box and folder numbers from the entry,
coverage flag not_digitized, and title, series, date and item type as
synthesized (date-sort the first four digits of the trailing year
pattern, item type the first keyword match after skipping two
segments). -/
theorem C2_placeholder_fields (db db' : Db) (n : Nat) (e : FindingAidEntry) (ff : Int)
    (h : insert_missing_papers db = some (db', n)) (hpos : 0 < ff)
    (honce : (missingRows db.finding_aid).filter (fun r => r.folder_number = some ff) = [e])
    (hsurv : (db.papers.filter notPlaceholder).all (fun p => !(p.node_id = -ff)) = true) :
    (db'.papers.filter (fun p => p.node_id = -ff)).map eraseId = [mkPlaceholder 0 ff e]
    ∧ (mkPlaceholder 0 ff e).node_id = -ff
    ∧ (mkPlaceholder 0 ff e).node_id < 0
    ∧ (mkPlaceholder 0 ff e).ocr_status = some "not_digitized"
    ∧ (mkPlaceholder 0 ff e).box_number = some e.box_number
    ∧ (mkPlaceholder 0 ff e).folder_number = some ff := by
  unfold insert_missing_papers at h
  cases hl : insertLoop (db.papers.filter notPlaceholder) db.seq 0 (missingRows db.finding_aid)
    with
  | none =>
    simp only [hl] at h
    exact Option.noConfusion h
  | some r =>
    obtain ⟨ps, s', cnt⟩ := r
    simp only [hl, Option.some.injEq, Prod.mk.injEq] at h
    obtain ⟨hdb, -⟩ := h
    subst hdb
    refine ⟨?_, rfl, by simp [node_id_mkPlaceholder]; omega, rfl, rfl, rfl⟩
    exact insertLoop_creates_one _ _ _ _ _ _ _ _ _ hl honce hsurv

/-- C2 witness: the amended theorem applied to the end-to-end example
(box 12, folder 5, description ending in Article -- 1975), together
with the concrete synthesized field values. -/
theorem C2_placeholder_fields_witness :
    ((fxDbRun.papers.filter (fun p => p.node_id = -(5 : Int))).map eraseId
      = [mkPlaceholder 0 5 fxEntry125])
    ∧ (mkPlaceholder 0 5 fxEntry125).node_id = -5
    ∧ (mkPlaceholder 0 5 fxEntry125).node_id < 0
    ∧ (mkPlaceholder 0 5 fxEntry125).box_number = some 12
    ∧ (mkPlaceholder 0 5 fxEntry125).folder_number = some 5
    ∧ (mkPlaceholder 0 5 fxEntry125).item_type = some "article"
    ∧ (mkPlaceholder 0 5 fxEntry125).date_sort = some "1975"
    ∧ (mkPlaceholder 0 5 fxEntry125).ocr_status = some "not_digitized" := by
  have h := C2_placeholder_fields fxDb125 fxDbRun 1 fxEntry125 5
    (by decide) (by decide) (by decide) (by decide)
  exact ⟨h.1, h.2.1, h.2.2.1, by decide, by decide, by decide, by decide, h.2.2.2.1⟩

/-- C1 witness: a successful run on the example database, and the
idempotence theorem applied to it. -/
theorem C1_insert_missing_papers_idempotent_witness :
    insert_missing_papers fxDb125 = some (fxDbRun, 1)
    ∧ ∃ db₂, insert_missing_papers fxDbRun = some (db₂, 1)
        ∧ db₂.papers.map eraseId = fxDbRun.papers.map eraseId
        ∧ db₂.finding_aid = fxDbRun.finding_aid :=
  ⟨by decide, C1_insert_missing_papers_idempotent fxDb125 fxDbRun 1 (by decide)⟩

/-- C6 witness: the failing-engine theorem applied to a concrete search
with an uncompilable bracket pattern over a one-record store. -/
theorem C6_regex_error_degrades_witness :
    ({ query := some "[", use_regex := true } : SearchConfig).use_regex = true
    ∧ ("[" : String) ≠ ""
    ∧ (search_papers fxFts fxReFail { query := some "[", use_regex := true } [fxArch1] = ([], 0)
      ∧ ∀ (re' : String → String → Option Bool) (p : Paper), re' "[" p.title = none →
          (∀ t, p.text_content = some t → re' "[" t = none) →
          wherePred fxFts re' { query := some "[", use_regex := true } p = false) :=
  ⟨rfl, by decide,
    C6_regex_error_degrades fxFts fxReFail { query := some "[", use_regex := true } "["
      [fxArch1] rfl rfl (by decide) (fun _ => rfl)⟩

/-- C7 witness: the TTL theorem applied to a concrete cache computed at
time 0, read at times 10 and 299 while the store changes, and refreshed
at time 300. -/
theorem C7_facets_ttl_staleness_witness :
    ((10 : Int) - 0 < FACETS_CACHE_TTL) ∧ ((299 : Int) - 0 < FACETS_CACHE_TTL)
    ∧ (FACETS_CACHE_TTL ≤ (300 : Int) - 0)
    ∧ (get_facets 10 [fxArch2]
        { cache := some (compute_facets [fxArch1]), time := 0 }
        = (compute_facets [fxArch1], { cache := some (compute_facets [fxArch1]), time := 0 })
      ∧ get_facets 299 []
          { cache := some (compute_facets [fxArch1]), time := 0 }
          = (compute_facets [fxArch1], { cache := some (compute_facets [fxArch1]), time := 0 })
      ∧ get_facets 300 [fxArch2]
          { cache := some (compute_facets [fxArch1]), time := 0 }
          = (compute_facets [fxArch2],
             { cache := some (compute_facets [fxArch2]), time := 300 })) :=
  ⟨by decide, by decide, by decide,
    C7_facets_ttl_staleness { cache := some (compute_facets [fxArch1]), time := 0 }
      (compute_facets [fxArch1]) 0 10 299 300 [fxArch2] [] [fxArch2] rfl rfl
      (by decide) (by decide) (by decide)⟩

/-- C9 witness: the sorting theorem applied at a sort field outside the
allow-list and the two concrete archive addresses. -/
theorem C9_archive_order_sorting_witness :
    valid_sort_columns.contains "bogus" = false
    ∧ (orderCmp { ({} : SearchConfig) with sort_by := "archive_order", sort_order := "DESC" }
          fxArch1 fxArch2
        = (orderCmp { ({} : SearchConfig) with sort_by := "archive_order", sort_order := "ASC" }
            fxArch1 fxArch2).swap
      ∧ orderLe { ({} : SearchConfig) with sort_by := "archive_order", sort_order := "DESC" }
          fxArch1 fxArch2
        = orderLe { ({} : SearchConfig) with sort_by := "archive_order", sort_order := "ASC" }
            fxArch2 fxArch1
      ∧ search_papers fxFts fxReFail { ({} : SearchConfig) with sort_by := "bogus" } [fxArch1]
        = search_papers fxFts fxReFail { ({} : SearchConfig) with sort_by := "date_sort" }
            [fxArch1]
      ∧ search_papers fxFts fxReFail fxCfgArchAsc [fxArch2, fxArch1] = ([fxArch1, fxArch2], 2)
      ∧ search_papers fxFts fxReFail fxCfgArchDesc [fxArch2, fxArch1]
        = ([fxArch2, fxArch1], 2)) :=
  ⟨by decide,
    C9_archive_order_sorting fxFts fxReFail {} fxArch1 fxArch2 "bogus" [fxArch1] (by decide)⟩

/-- C10 witness: the short-word fuzzy theorem applied to the query made
of two one-letter words over a one-record store. -/
theorem C10_fuzzy_short_query_ignored_witness :
    ({ query := some "a b", fuzzy := true } : SearchConfig).fuzzy = true
    ∧ ((pyWords ("a b" : String).data).all (fun w => w.length < 2) = true)
    ∧ search_papers fxFts fxReFail { query := some "a b", fuzzy := true } [fxArch1]
      = search_papers fxFts fxReFail
          { ({ query := some "a b", fuzzy := true } : SearchConfig) with query := none }
          [fxArch1] :=
  ⟨rfl, by decide,
    C10_fuzzy_short_query_ignored fxFts fxReFail { query := some "a b", fuzzy := true }
      "a b" [fxArch1] rfl rfl rfl (by decide)⟩

/-- The remainder after the first quote is no longer than the input. -/
theorem splitQuote_snd_length (l : List Char) : (splitQuote l).2.length ≤ l.length := by
  induction l with
  | nil => exact Nat.le_refl 0
  | cons c r ih =>
    simp only [splitQuote]
    by_cases h : c = '"'
    · rw [if_pos h]
      exact Nat.le_succ_of_le (Nat.le_refl _)
    · rw [if_neg h]
      exact Nat.le_succ_of_le ih

/-- Mapping preserves definedness of an optional value. -/
theorem isSome_omap {α β : Type} (f : α → β) (o : Option α) : (o.map f).isSome = o.isSome := by
  cases o <;> rfl

/-- Dropping a matching run never lengthens a list. -/
theorem length_dropWhile_le {α : Type} (p : α → Bool) (l : List α) :
    (l.dropWhile p).length ≤ l.length := by
  induction l with
  | nil => exact Nat.le_refl 0
  | cons a l ih =>
    rw [List.dropWhile_cons]
    by_cases h : p a = true
    · rw [if_pos h]
      exact Nat.le_succ_of_le ih
    · rw [if_neg h]

/-- An empty input tokenizes to no tokens under any fuel. -/
theorem tokenizeFuel_nil (f : Nat) : tokenizeFuel f [] = some [] := by
  cases f <;> rfl

/-- Totality of the tokenizer: fuel covering the input length never
runs out, because every iteration of the scanning loop consumes at
least one character. -/
theorem tokenizeFuel_isSome : ∀ (fuel : Nat) (l : List Char), l.length ≤ fuel →
    (tokenizeFuel fuel l).isSome = true := by
  intro fuel
  induction fuel with
  | zero =>
    intro l h
    rw [Nat.le_zero, List.length_eq_zero] at h
    subst h
    rfl
  | succ f ih =>
    intro l h
    cases l with
    | nil => rfl
    | cons c rest =>
      rw [List.length_cons, Nat.succ_le_succ_iff] at h
      simp only [tokenizeFuel]
      by_cases hws : c.isWhitespace = true
      · rw [if_pos hws]
        exact ih rest h
      · rw [if_neg hws]
        by_cases hq : c = '"'
        · rw [if_pos hq]
          cases hsp : splitQuote rest with
          | mk b r =>
            simp only
            rw [isSome_omap]
            refine ih r (Nat.le_trans ?_ h)
            have := splitQuote_snd_length rest
            rw [hsp] at this
            exact this
        · rw [if_neg hq]
          by_cases hl : c = '('
          · rw [if_pos hl, isSome_omap]
            exact ih rest h
          · rw [if_neg hl]
            by_cases hr : c = ')'
            · rw [if_pos hr, isSome_omap]
              exact ih rest h
            · rw [if_neg hr, isSome_omap]
              exact ih (rest.dropWhile isWordChar)
                (Nat.le_trans (length_dropWhile_le _ _) h)

/-- The tokenizer's value does not depend on the fuel, once the fuel
covers the input. -/
theorem tokenizeFuel_congr : ∀ (fuel : Nat) (l : List Char), l.length ≤ fuel →
    tokenizeFuel fuel l = tokenizeFuel l.length l := by
  intro fuel
  induction fuel using Nat.strong_induction_on with
  | _ fuel ih =>
    intro l h
    match fuel, l with
    | fuel, [] => rw [tokenizeFuel_nil, List.length_nil, tokenizeFuel_nil]
    | 0, c :: rest => exact absurd h (by simp)
    | f + 1, c :: rest =>
      rw [List.length_cons] at h ⊢
      have hf : rest.length ≤ f := Nat.succ_le_succ_iff.mp h
      have step : ∀ (x : List Char), x.length ≤ rest.length →
          tokenizeFuel f x = tokenizeFuel rest.length x := by
        intro x hx
        rw [ih f (Nat.lt_succ_self f) x (Nat.le_trans hx hf),
          ih rest.length (Nat.lt_succ_of_le hf) x hx]
      simp only [tokenizeFuel]
      by_cases hws : c.isWhitespace = true
      · rw [if_pos hws, if_pos hws]
        exact step rest (Nat.le_refl _)
      · rw [if_neg hws, if_neg hws]
        by_cases hq : c = '"'
        · rw [if_pos hq, if_pos hq]
          have hrl : (splitQuote rest).2.length ≤ rest.length := splitQuote_snd_length rest
          rw [step (splitQuote rest).2 hrl]
        · rw [if_neg hq, if_neg hq]
          by_cases hl : c = '('
          · rw [if_pos hl, if_pos hl, step rest (Nat.le_refl _)]
          · rw [if_neg hl, if_neg hl]
            by_cases hr : c = ')'
            · rw [if_pos hr, if_pos hr, step rest (Nat.le_refl _)]
            · rw [if_neg hr, if_neg hr,
                step (rest.dropWhile isWordChar) (length_dropWhile_le _ _)]

/-- Tokenizing nothing yields no tokens. -/
theorem tokenize_nil : tokenize [] = [] := rfl

/-- A leading whitespace character is skipped. -/
theorem tokenize_cons_ws (c : Char) (l : List Char) (h : c.isWhitespace = true) :
    tokenize (c :: l) = tokenize l := by
  unfold tokenize
  rw [List.length_cons]
  simp only [tokenizeFuel]
  rw [if_pos h]

/-- A leading quote opens a phrase running to the next quote or the end
of the input. -/
theorem tokenize_cons_quote (l : List Char) :
    tokenize ('"' :: l)
      = (if pyStrip (splitQuote l).1 = [] then []
         else [Tok.phrase (pyStrip (splitQuote l).1)]) ++ tokenize (splitQuote l).2 := by
  unfold tokenize
  rw [List.length_cons]
  simp only [tokenizeFuel]
  rw [if_neg (by decide), if_pos trivial,
    tokenizeFuel_congr l.length (splitQuote l).2 (splitQuote_snd_length l)]
  have hs := tokenizeFuel_isSome (splitQuote l).2.length (splitQuote l).2 (Nat.le_refl _)
  cases ho : tokenizeFuel (splitQuote l).2.length (splitQuote l).2 with
  | none =>
    rw [ho] at hs
    cases hs
  | some ts =>
    by_cases hph : pyStrip (splitQuote l).1 = []
    · simp [hph]
    · simp [hph]

/-- A leading open parenthesis becomes its token. -/
theorem tokenize_cons_lparen (l : List Char) :
    tokenize ('(' :: l) = Tok.lparen :: tokenize l := by
  unfold tokenize
  rw [List.length_cons]
  simp only [tokenizeFuel]
  rw [if_neg (by decide), if_neg (by decide), if_pos trivial]
  have hs := tokenizeFuel_isSome l.length l (Nat.le_refl _)
  cases ho : tokenizeFuel l.length l with
  | none =>
    rw [ho] at hs
    cases hs
  | some ts => rfl

/-- A leading close parenthesis becomes its token. -/
theorem tokenize_cons_rparen (l : List Char) :
    tokenize (')' :: l) = Tok.rparen :: tokenize l := by
  unfold tokenize
  rw [List.length_cons]
  simp only [tokenizeFuel]
  rw [if_neg (by decide), if_neg (by decide), if_neg (by decide), if_pos trivial]
  have hs := tokenizeFuel_isSome l.length l (Nat.le_refl _)
  cases ho : tokenizeFuel l.length l with
  | none =>
    rw [ho] at hs
    cases hs
  | some ts => rfl

/-- A leading word character scans a word run and classifies it. -/
theorem tokenize_cons_word (c : Char) (l : List Char) (hws : ¬(c.isWhitespace = true))
    (hq : ¬(c = '"')) (hl : ¬(c = '(')) (hr : ¬(c = ')')) :
    tokenize (c :: l)
      = (match classifyWord (c :: l.takeWhile isWordChar) with
         | some t => [t]
         | none => []) ++ tokenize (l.dropWhile isWordChar) := by
  unfold tokenize
  rw [List.length_cons]
  simp only [tokenizeFuel]
  rw [if_neg hws, if_neg hq, if_neg hl, if_neg hr,
    tokenizeFuel_congr l.length _ (length_dropWhile_le _ _)]
  have hs := tokenizeFuel_isSome (l.dropWhile isWordChar).length (l.dropWhile isWordChar)
    (Nat.le_refl _)
  cases ho : tokenizeFuel (l.dropWhile isWordChar).length (l.dropWhile isWordChar) with
  | none =>
    rw [ho] at hs
    cases hs
  | some ts =>
    cases hcl : classifyWord (c :: l.takeWhile isWordChar) with
    | none => simp [hcl]
    | some t => simp [hcl]

/-- With no quote in the input, the phrase body runs to the end and the
scan resumes on an empty remainder. -/
theorem splitQuote_no_quote (l : List Char) (h : ∀ c ∈ l, ¬(c = '"')) :
    splitQuote l = (l, []) := by
  induction l with
  | nil => rfl
  | cons c r ih =>
    have h1 : ¬(c = '"') := h c (by simp)
    have h2 := ih (fun x hx => h x (by simp [hx]))
    simp only [splitQuote, h2, if_neg h1]

/-- A run of matching elements lets takeWhile pass over an append
boundary. -/
theorem takeWhile_append_all {α : Type} (p : α → Bool) (a b : List α)
    (h : ∀ x ∈ a, p x = true) : (a ++ b).takeWhile p = a ++ b.takeWhile p := by
  induction a with
  | nil => rfl
  | cons c r ih =>
    rw [List.cons_append, List.takeWhile_cons, if_pos (h c (by simp)), List.cons_append,
      ih (fun x hx => h x (by simp [hx]))]

/-- A run of matching elements lets dropWhile pass over an append
boundary. -/
theorem dropWhile_append_all {α : Type} (p : α → Bool) (a b : List α)
    (h : ∀ x ∈ a, p x = true) : (a ++ b).dropWhile p = b.dropWhile p := by
  induction a with
  | nil => rfl
  | cons c r ih =>
    rw [List.cons_append, List.dropWhile_cons, if_pos (h c (by simp)),
      ih (fun x hx => h x (by simp [hx]))]

/-- When the first part of an append already stops the scan, takeWhile
and dropWhile are confined to it. -/
theorem takeWhile_append_stop {α : Type} (p : α → Bool) (a b : List α)
    (h : ¬ ∀ x ∈ a, p x = true) :
    (a ++ b).takeWhile p = a.takeWhile p
      ∧ (a ++ b).dropWhile p = a.dropWhile p ++ b ∧ a.dropWhile p ≠ [] := by
  induction a with
  | nil => exact absurd (by simp) h
  | cons c r ih =>
    by_cases hc : p c = true
    · have h' : ¬ ∀ x ∈ r, p x = true := by
        intro hall
        refine h ?_
        intro x hx
        rcases List.mem_cons.mp hx with hx | hx
        · subst hx
          exact hc
        · exact hall x hx
      obtain ⟨t1, t2, t3⟩ := ih h'
      refine ⟨?_, ?_, ?_⟩
      · rw [List.cons_append, List.takeWhile_cons, if_pos hc, List.takeWhile_cons, if_pos hc,
          t1]
      · rw [List.cons_append, List.dropWhile_cons, if_pos hc, List.dropWhile_cons, if_pos hc,
          t2]
      · rw [List.dropWhile_cons, if_pos hc]
        exact t3
    · refine ⟨?_, ?_, ?_⟩
      · rw [List.cons_append, List.takeWhile_cons, if_neg hc, List.takeWhile_cons, if_neg hc]
      · rw [List.cons_append, List.dropWhile_cons, if_neg hc, List.dropWhile_cons, if_neg hc]
        rfl
      · rw [List.dropWhile_cons, if_neg hc]
        simp

/-- An unterminated quote produces a phrase token holding the stripped
remainder of the input: tokenizing quote-free text followed by one
double quote and quote-free text appends exactly the one phrase token
(or nothing when it strips to empty) to the tokens of the text before
the quote. -/
theorem tokenize_unterminated_general : ∀ (n : Nat) (pre s : List Char), pre.length = n →
    (∀ c ∈ pre, ¬(c = '"')) → (∀ c ∈ s, ¬(c = '"')) →
    tokenize (pre ++ '"' :: s)
      = tokenize pre ++ (if pyStrip s = [] then [] else [Tok.phrase (pyStrip s)]) := by
  intro n
  induction n using Nat.strong_induction_on with
  | _ n ih =>
    intro pre s hlen hpre hs
    cases pre with
    | nil =>
      rw [List.nil_append, tokenize_cons_quote, splitQuote_no_quote s hs, tokenize_nil]
      simp
    | cons c pre' =>
      subst hlen
      have hc : ¬(c = '"') := hpre c (by simp)
      have hpre' : ∀ x ∈ pre', ¬(x = '"') := fun x hx => hpre x (by simp [hx])
      have hlt : ∀ (m : List Char), m.length ≤ pre'.length → m.length < (c :: pre').length := by
        intro m hm
        rw [List.length_cons]
        exact Nat.lt_succ_of_le hm
      by_cases hws : c.isWhitespace = true
      · rw [List.cons_append, tokenize_cons_ws c _ hws, tokenize_cons_ws c _ hws]
        exact ih pre'.length (hlt pre' (Nat.le_refl _)) pre' s rfl hpre' hs
      · by_cases hlp : c = '('
        · subst hlp
          rw [List.cons_append, tokenize_cons_lparen, tokenize_cons_lparen,
            ih pre'.length (hlt pre' (Nat.le_refl _)) pre' s rfl hpre' hs]
          rfl
        · by_cases hrp : c = ')'
          · subst hrp
            rw [List.cons_append, tokenize_cons_rparen, tokenize_cons_rparen,
              ih pre'.length (hlt pre' (Nat.le_refl _)) pre' s rfl hpre' hs]
            rfl
          · rw [List.cons_append, tokenize_cons_word c _ hws hc hlp hrp,
              tokenize_cons_word c pre' hws hc hlp hrp]
            by_cases hall : ∀ x ∈ pre', isWordChar x = true
            · have ht : (pre' ++ '"' :: s).takeWhile isWordChar
                  = pre' ++ ('"' :: s).takeWhile isWordChar :=
                takeWhile_append_all _ _ _ hall
              have hd : (pre' ++ '"' :: s).dropWhile isWordChar
                  = ('"' :: s).dropWhile isWordChar :=
                dropWhile_append_all _ _ _ hall
              have hqw : ('"' :: s).takeWhile isWordChar = [] := by
                rw [List.takeWhile_cons, if_neg (by decide)]
              have hqd : ('"' :: s).dropWhile isWordChar = '"' :: s := by
                rw [List.dropWhile_cons, if_neg (by decide)]
              have ht' : pre'.takeWhile isWordChar = pre' := by
                have := takeWhile_append_all isWordChar pre' [] hall
                simpa using this
              have hd' : pre'.dropWhile isWordChar = [] := by
                have := dropWhile_append_all isWordChar pre' [] hall
                simpa using this
              rw [ht, hqw, List.append_nil, hd, hqd, ht', hd', tokenize_nil, List.append_nil,
                tokenize_cons_quote, splitQuote_no_quote s hs]
              simp [tokenize_nil]
            · obtain ⟨t1, t2, t3⟩ := takeWhile_append_stop isWordChar pre' ('"' :: s) hall
              have hdropmem : ∀ x ∈ pre'.dropWhile isWordChar, ¬(x = '"') := by
                intro x hx
                exact hpre' x ((List.dropWhile_sublist isWordChar).mem hx)
              rw [t1, t2,
                ih (pre'.dropWhile isWordChar).length
                  (hlt _ (length_dropWhile_le _ _)) (pre'.dropWhile isWordChar) s rfl
                  hdropmem hs]
              rw [List.append_assoc]

/-- C4: query compilation is total.  The tokenizer's scanning loop,
fuelled by the input length as the index-based Python loop is bounded by
it, always returns (never raises); an unterminated double quote yields a
phrase token holding the whitespace-stripped remainder of the input (or
no token when that strips to empty); and the documented unterminated
example compiles to the expected query. -/
theorem C4_build_fts_query_total :
    (∀ l : List Char, (tokenizeFuel l.length l).isSome = true)
    ∧ (∀ pre s : List Char, (∀ c ∈ pre, ¬(c = '"')) → (∀ c ∈ s, ¬(c = '"')) →
        tokenize (pre ++ '"' :: s)
          = tokenize pre ++ (if pyStrip s = [] then [] else [Tok.phrase (pyStrip s)]))
    ∧ build_fts_query "simon \"unterminated" = "\"simon\" AND \"unterminated\"" := by
  refine ⟨fun l => tokenizeFuel_isSome l.length l (Nat.le_refl _),
    fun pre s hp hs => tokenize_unterminated_general pre.length pre s rfl hp hs,
    by decide⟩

/-- C4 witness: the unterminated-quote clause of the totality theorem
instantiated on the documented example input. -/
theorem C4_build_fts_query_total_witness :
    (∀ c ∈ ("simon " : String).data, ¬(c = '"'))
    ∧ (∀ c ∈ ("unterminated" : String).data, ¬(c = '"'))
    ∧ tokenize (("simon " : String).data ++ '"' :: ("unterminated" : String).data)
      = tokenize ("simon " : String).data
        ++ (if pyStrip ("unterminated" : String).data = [] then []
            else [Tok.phrase (pyStrip ("unterminated" : String).data)]) :=
  ⟨by decide, by decide,
    C4_build_fts_query_total.2.1 ("simon " : String).data ("unterminated" : String).data
      (by decide) (by decide)⟩

/-- Recover the value of Char.ofNat on a valid code point. -/
theorem toNat_ofNat_valid (n : Nat) (h : n.isValidChar) : (Char.ofNat n).toNat = n := by
  rw [Char.ofNat, dif_pos h]
  rfl

/-- ASCII lowering only moves the uppercase letters, so a character
lowering to a code point outside the lowercase-letter range was already
that character. -/
theorem toLower_fix (c x : Char) (hx : x.toNat < 97 ∨ 122 < x.toNat) (h : c.toLower = x) :
    c = x := by
  unfold Char.toLower at h
  by_cases hr : 65 ≤ c.toNat ∧ c.toNat ≤ 90
  · rw [if_pos (by exact ⟨hr.1, hr.2⟩)] at h
    have h2 := congrArg Char.toNat h
    rw [toNat_ofNat_valid (c.toNat + 32) (Or.inl (by omega))] at h2
    omega
  · rwa [if_neg (by omega)] at h

/-- A plain character is not any fixed non-plain character. -/
theorem plain_ne (c : Char) (h : plainChar c = true) (x : Char) (hx : plainChar x = false) :
    ¬(c = x) := by
  intro he
  subst he
  rw [h] at hx
  cases hx

/-- Lowering preserves the absence of a fixed character whose code is
outside the lowercase-letter range. -/
theorem lowerL_no_char (l : List Char) (x : Char) (hx : x.toNat < 97 ∨ 122 < x.toNat)
    (h : ∀ c ∈ l, ¬(c = x)) : ∀ c ∈ lowerL l, ¬(c = x) := by
  intro c hc hcx
  obtain ⟨c₀, hc₀, hlow⟩ := List.mem_map.mp hc
  rw [hcx] at hlow
  exact h c₀ hc₀ (toLower_fix c₀ x hx hlow)

/-- Escaping is the identity on plain tags, which contain no percent
and no underscore. -/
theorem escapeTag_plain : ∀ (l : List Char), l.all plainChar = true → escapeTag l = l := by
  intro l
  induction l with
  | nil => intro _; rfl
  | cons c r ih =>
    intro h
    rw [List.all_cons, Bool.and_eq_true] at h
    have hcp : ¬(c = '%' || c = '_') = true := by
      simp only [Bool.or_eq_true, decide_eq_true_eq]
      rintro (rfl | rfl) <;> cases h.1
    simp only [escapeTag]
    rw [if_neg hcp, ih h.2]

/-- Matching the empty pattern. -/
theorem likeM_nil (s : List Char) : likeM [] s = s.isEmpty := rfl

/-- Matching a leading percent wildcard scans every suffix. -/
theorem likeM_percent (ps s : List Char) :
    likeM ('%' :: ps) s = s.tails.any (fun t => likeM ps t) := rfl

/-- Matching a leading ordinary character compares case-folded heads. -/
theorem likeM_char (c : Char) (ps : List Char) (hp : ¬(c = '%')) (hu : ¬(c = '_'))
    (s : List Char) :
    likeM (c :: ps) s
      = match s with
        | [] => false
        | d :: s' => (c.toLower == d.toLower) && likeM ps s' := by
  simp only [likeM]
  rw [if_neg hp, if_neg hu]

/-- Suffixes are exactly the members of tails. -/
theorem mem_tails_iff {α : Type} : ∀ (l u : List α), u ∈ l.tails ↔ ∃ a, a ++ u = l := by
  intro l
  induction l with
  | nil =>
    intro u
    simp
  | cons c r ih =>
    intro u
    rw [List.tails_cons, List.mem_cons, ih u]
    constructor
    · rintro (rfl | ⟨a, rfl⟩)
      · exact ⟨[], rfl⟩
      · exact ⟨c :: a, rfl⟩
    · rintro ⟨a, ha⟩
      cases a with
      | nil => exact Or.inl (by simpa using ha)
      | cons x a' =>
        right
        rw [List.cons_append] at ha
        injection ha with h1 h2
        exact ⟨a', h2⟩

/-- A wildcard-free pattern followed by a trailing percent matches
exactly when the case-folded pattern begins the case-folded text. -/
theorem likeM_litp : ∀ (lit : List Char), (∀ c ∈ lit, ¬(c = '%') ∧ ¬(c = '_')) →
    ∀ (s : List Char), (likeM (lit ++ ['%']) s = true ↔ ∃ u, lowerL s = lowerL lit ++ u) := by
  intro lit
  induction lit with
  | nil =>
    intro _ s
    rw [List.nil_append, likeM_percent]
    constructor
    · intro _
      exact ⟨lowerL s, rfl⟩
    · intro _
      refine List.any_eq_true.mpr ⟨[], (mem_tails_iff s []).mpr ⟨s, List.append_nil s⟩, rfl⟩
  | cons c lit' ih =>
    intro hfree s
    have hc := hfree c (by simp)
    rw [List.cons_append, likeM_char c _ hc.1 hc.2]
    cases s with
    | nil =>
      simp [lowerL]
    | cons d s' =>
      rw [Bool.and_eq_true, beq_iff_eq,
        ih (fun x hx => hfree x (List.mem_cons_of_mem c hx)) s']
      simp only [lowerL, List.map_cons, List.cons_append]
      constructor
      · rintro ⟨h1, u, h2⟩
        refine ⟨u, ?_⟩
        rw [← h1, h2]
      · rintro ⟨u, hu⟩
        injection hu with h1 h2
        exact ⟨h1.symm, u, h2⟩

/-- The full percent-delimited pattern matches exactly when the
case-folded literal occurs inside the case-folded text. -/
theorem likeM_mid : ∀ (lit : List Char), (∀ c ∈ lit, ¬(c = '%') ∧ ¬(c = '_')) →
    ∀ (s : List Char),
    (likeM ('%' :: (lit ++ ['%'])) s = true ↔ ∃ a b, lowerL s = a ++ lowerL lit ++ b) := by
  intro lit hfree s
  rw [likeM_percent]
  constructor
  · intro h
    obtain ⟨u, hu, hlu⟩ := List.any_eq_true.mp h
    obtain ⟨a, ha⟩ := (mem_tails_iff s u).mp hu
    obtain ⟨b, hb⟩ := (likeM_litp lit hfree u).mp hlu
    refine ⟨lowerL a, b, ?_⟩
    rw [← ha]
    simp only [lowerL, List.map_append]
    simp only [lowerL] at hb
    rw [hb, List.append_assoc]
  · rintro ⟨a, b, hab⟩
    refine List.any_eq_true.mpr ⟨s.drop a.length, (mem_tails_iff s _).mpr
      ⟨s.take a.length, List.take_append_drop a.length s⟩, ?_⟩
    refine (likeM_litp lit hfree (s.drop a.length)).mpr ⟨b, ?_⟩
    have hdrop : lowerL (s.drop a.length) = (lowerL s).drop a.length := by
      simp [lowerL, List.map_drop]
    rw [hdrop, hab, List.append_assoc, List.drop_left]

/-! ## Exact characterisation of the tag clause on plain tags -/

/-- Every element of an all-true Boolean list test satisfies the test.
-/
theorem all_mem {α : Type} (p : α → Bool) : ∀ (l : List α), l.all p = true →
    ∀ x ∈ l, p x = true := by
  intro l
  induction l with
  | nil => intro _ x hx; cases hx
  | cons a l ih =>
    intro h x hx
    rw [List.all_cons, Bool.and_eq_true] at h
    rcases List.mem_cons.mp hx with rfl | hx2
    · exact h.1
    · exact ih h.2 x hx2

/-- A pointwise-true Boolean test holds of the whole list. -/
theorem mem_all {α : Type} (p : α → Bool) : ∀ (l : List α),
    (∀ x ∈ l, p x = true) → l.all p = true := by
  intro l
  induction l with
  | nil => intro _; rfl
  | cons a l ih =>
    intro h
    rw [List.all_cons, Bool.and_eq_true]
    exact ⟨h a (by simp), ih (fun x hx => h x (List.mem_cons_of_mem a hx))⟩

/-- A quote preceded by a quote-free run aligns with the first quote of
any decomposition: the other prefix either equals the run or extends
past its closing quote. -/
theorem quote_split : ∀ (x : List Char), (∀ c ∈ x, ¬(c = '"')) →
    ∀ (y u v : List Char), x ++ '"' :: u = y ++ '"' :: v →
    (y = x ∧ u = v) ∨ ∃ y2, y = x ++ '"' :: y2 ∧ u = y2 ++ '"' :: v := by
  intro x
  induction x with
  | nil =>
    intro _ y u v h
    rw [List.nil_append] at h
    cases y with
    | nil =>
      rw [List.nil_append] at h
      injection h with _ h2
      exact Or.inl ⟨rfl, h2⟩
    | cons d y2 =>
      rw [List.cons_append] at h
      injection h with h1 h2
      exact Or.inr ⟨y2, by rw [List.nil_append, ← h1], h2⟩
  | cons c x2 ih =>
    intro hx y u v h
    rw [List.cons_append] at h
    cases y with
    | nil =>
      rw [List.nil_append] at h
      injection h with h1 _
      exact absurd h1 (hx c (by simp))
    | cons d y2 =>
      rw [List.cons_append] at h
      injection h with h1 h2
      rcases ih (fun a ha => hx a (List.mem_cons_of_mem c ha)) y2 u v h2 with
        ⟨hy, hu⟩ | ⟨y3, hy, hu⟩
      · exact Or.inl ⟨by rw [hy, h1], hu⟩
      · exact Or.inr ⟨y3, by rw [hy, h1, List.cons_append], hu⟩

/-- A quoted occurrence of a word free of quotes, commas and closing
brackets inside the rendered tag-array body names one of the elements.
-/
theorem tagsBody_target (w : List Char) (hwq : ∀ c ∈ w, ¬(c = '"'))
    (hwc : ∀ c ∈ w, ¬(c = ',')) (hwr : ∀ c ∈ w, ¬(c = ']')) :
    ∀ (ms : List (List Char)), (∀ m ∈ ms, ∀ c ∈ m, ¬(c = '"')) →
    ∀ a b, tagsBody ms ++ [']'] = a ++ '"' :: (w ++ '"' :: b) → w ∈ ms := by
  intro ms
  induction ms with
  | nil =>
    intro _ a b h
    rw [show tagsBody [] = [] from rfl, List.nil_append] at h
    have hl := congrArg List.length h
    simp only [List.length_append, List.length_cons, List.length_nil] at hl
    omega
  | cons m rest ih =>
    intro hms a b h
    have hmq : ∀ c ∈ m, ¬(c = '"') := hms m (by simp)
    have hrest : ∀ m2 ∈ rest, ∀ c ∈ m2, ¬(c = '"') :=
      fun m2 hm2 => hms m2 (List.mem_cons_of_mem m hm2)
    cases rest with
    | nil =>
      simp only [tagsBody, quoteJson, List.cons_append, List.append_assoc,
        List.singleton_append] at h
      cases a with
      | nil =>
        rw [List.nil_append] at h
        injection h with _ h2
        rcases quote_split m hmq w _ _ h2 with ⟨hy, _⟩ | ⟨y2, hy, _⟩
        · rw [hy]
          exact List.mem_cons_self m []
        · exact absurd rfl
            (hwq '"' (by rw [hy]; exact List.mem_append_right m (by simp)))
      | cons c a2 =>
        rw [List.cons_append] at h
        injection h with _ h2
        rcases quote_split m hmq a2 _ _ h2 with ⟨_, hu⟩ | ⟨y2, _, hu⟩
        · cases w with
          | nil =>
            rw [List.nil_append] at hu
            injection hu with h3 _
            exact absurd h3 (by decide)
          | cons c0 w2 =>
            rw [List.cons_append] at hu
            injection hu with h3 _
            exact absurd h3.symm (hwr c0 (by simp))
        · have hl := congrArg List.length hu
          simp only [List.length_append, List.length_cons, List.length_nil] at hl
          omega
    | cons r rs =>
      simp only [tagsBody, quoteJson, List.cons_append, List.append_assoc,
        List.singleton_append] at h
      cases a with
      | nil =>
        rw [List.nil_append] at h
        injection h with _ h2
        rcases quote_split m hmq w _ _ h2 with ⟨hy, _⟩ | ⟨y2, hy, _⟩
        · rw [hy]
          exact List.mem_cons_self m (r :: rs)
        · exact absurd rfl
            (hwq '"' (by rw [hy]; exact List.mem_append_right m (by simp)))
      | cons c a2 =>
        rw [List.cons_append] at h
        injection h with _ h2
        rcases quote_split m hmq a2 _ _ h2 with ⟨_, hu⟩ | ⟨y2, _, hu⟩
        · cases w with
          | nil =>
            rw [List.nil_append] at hu
            injection hu with h3 _
            exact absurd h3 (by decide)
          | cons c0 w2 =>
            rw [List.cons_append] at hu
            injection hu with h3 _
            exact absurd h3.symm (hwc c0 (by simp))
        · cases y2 with
          | nil =>
            rw [List.nil_append] at hu
            injection hu with h3 _
            exact absurd h3 (by decide)
          | cons d y3 =>
            rw [List.cons_append] at hu
            injection hu with _ hu2
            cases y3 with
            | nil =>
              rw [List.nil_append] at hu2
              injection hu2 with h4 _
              exact absurd h4 (by decide)
            | cons d2 y4 =>
              rw [List.cons_append] at hu2
              injection hu2 with _ hu3
              exact List.mem_cons_of_mem m (ih hrest y4 b hu3)

/-- Every element of the array appears quoted inside the rendered
body. -/
theorem tagsBody_mem : ∀ (ms : List (List Char)) (w : List Char), w ∈ ms →
    ∃ a b, tagsBody ms ++ [']'] = a ++ '"' :: (w ++ '"' :: b) := by
  intro ms
  induction ms with
  | nil => intro w hw; cases hw
  | cons m rest ih =>
    intro w hw
    rcases List.mem_cons.mp hw with rfl | hw2
    · cases rest with
      | nil => exact ⟨[], [']'], by simp [tagsBody, quoteJson]⟩
      | cons r rs =>
        exact ⟨[], ',' :: ' ' :: (tagsBody (r :: rs) ++ [']']),
          by simp [tagsBody, quoteJson]⟩
    · cases rest with
      | nil => cases hw2
      | cons r rs =>
        obtain ⟨a, b, hab⟩ := ih w hw2
        refine ⟨'"' :: m ++ '"' :: ',' :: ' ' :: a, b, ?_⟩
        simp only [tagsBody, quoteJson, List.cons_append, List.append_assoc,
          List.singleton_append, List.nil_append]
        rw [hab]

/-- Case folding distributes through the rendered array body. -/
theorem lowerL_tagsBody : ∀ (ms : List (List Char)),
    lowerL (tagsBody ms) = tagsBody (ms.map lowerL) := by
  intro ms
  induction ms with
  | nil => rfl
  | cons m rest ih =>
    cases rest with
    | nil =>
      simp only [List.map_cons, List.map_nil, tagsBody]
      simp [quoteJson, lowerL, show Char.toLower '"' = '"' from by decide]
    | cons r rs =>
      have h2 : tagsBody ((m :: r :: rs).map lowerL)
          = quoteJson (lowerL m) ++ ',' :: ' ' :: tagsBody ((r :: rs).map lowerL) := by
        simp only [List.map_cons, tagsBody]
      rw [h2, ← ih]
      simp [tagsBody, quoteJson, lowerL, show Char.toLower '"' = '"' from by decide,
        show Char.toLower ',' = ',' from by decide,
        show Char.toLower ' ' = ' ' from by decide]

/-- The LIKE clause built for a plain required tag matches the stored
JSON tags text of plain tags exactly when some stored tag equals the
required tag up to ASCII case. -/
theorem likeTag_iff (t : String) (es : List String)
    (ht : t.data.all plainChar = true)
    (hes : ∀ e ∈ es, e.data.all plainChar = true) :
    (likeCol (tagPattern t) (some (encTags es)) = true
      ↔ ∃ e ∈ es, lowerL e.data = lowerL t.data) := by
  have hesc : escapeTag t.data = t.data := escapeTag_plain t.data ht
  have hpat : tagPattern t = '%' :: (quoteJson t.data ++ ['%']) := by
    simp [tagPattern, quoteJson, hesc]
  have htp : ∀ c ∈ t.data, plainChar c = true := all_mem plainChar t.data ht
  have hfree : ∀ c ∈ quoteJson t.data, ¬(c = '%') ∧ ¬(c = '_') := by
    intro c hc
    simp only [quoteJson, List.mem_cons, List.mem_append, List.mem_singleton] at hc
    rcases hc with (rfl | hc) | (rfl | hnil)
    · exact ⟨by decide, by decide⟩
    · exact ⟨plain_ne c (htp c hc) '%' (by decide),
        plain_ne c (htp c hc) '_' (by decide)⟩
    · exact ⟨by decide, by decide⟩
    · cases hnil
  have hwq : ∀ c ∈ lowerL t.data, ¬(c = '"') :=
    lowerL_no_char t.data '"' (Or.inl (by decide))
      (fun c hc => plain_ne c (htp c hc) '"' (by decide))
  have hwc : ∀ c ∈ lowerL t.data, ¬(c = ',') :=
    lowerL_no_char t.data ',' (Or.inl (by decide))
      (fun c hc => plain_ne c (htp c hc) ',' (by decide))
  have hwr : ∀ c ∈ lowerL t.data, ¬(c = ']') :=
    lowerL_no_char t.data ']' (Or.inl (by decide))
      (fun c hc => plain_ne c (htp c hc) ']' (by decide))
  have hmsq : ∀ m ∈ (es.map String.data).map lowerL, ∀ c ∈ m, ¬(c = '"') := by
    intro m hm
    obtain ⟨m0, hm0, rfl⟩ := List.mem_map.mp hm
    obtain ⟨e, he, rfl⟩ := List.mem_map.mp hm0
    exact lowerL_no_char e.data '"' (Or.inl (by decide))
      (fun c hc => plain_ne c (all_mem plainChar e.data (hes e he) c hc) '"' (by decide))
  have hldata : lowerL (encTags es).data
      = '[' :: tagsBody ((es.map String.data).map lowerL) ++ [']'] := by
    have hmap : List.map Char.toLower (tagsBody (es.map String.data))
        = tagsBody ((es.map String.data).map lowerL) :=
      lowerL_tagsBody (es.map String.data)
    show List.map Char.toLower (('[' :: tagsBody (es.map String.data)) ++ [']']) = _
    rw [List.map_append, List.map_cons, hmap]
    rfl
  have hlq : lowerL (quoteJson t.data) = '"' :: lowerL t.data ++ ['"'] := by
    show List.map Char.toLower (('"' :: t.data) ++ ['"']) = _
    rw [List.map_append, List.map_cons]
    rfl
  rw [show likeCol (tagPattern t) (some (encTags es))
      = likeM ('%' :: (quoteJson t.data ++ ['%'])) (encTags es).data from
      by rw [← hpat]; rfl,
    likeM_mid (quoteJson t.data) hfree, hldata, hlq]
  constructor
  · rintro ⟨a, b, hab⟩
    simp only [List.append_assoc, List.cons_append, List.singleton_append,
      List.nil_append] at hab
    cases a with
    | nil =>
      rw [List.nil_append] at hab
      injection hab with h1 _
      exact absurd h1 (by decide)
    | cons c a2 =>
      rw [List.cons_append] at hab
      injection hab with _ h2
      have hw := tagsBody_target (lowerL t.data) hwq hwc hwr
        ((es.map String.data).map lowerL) hmsq a2 b h2
      obtain ⟨m, hm, hmw⟩ := List.mem_map.mp hw
      obtain ⟨e, he, hed⟩ := List.mem_map.mp hm
      exact ⟨e, he, by rw [hed, hmw]⟩
  · rintro ⟨e, he, hle⟩
    have hm : lowerL e.data ∈ (es.map String.data).map lowerL :=
      List.mem_map.mpr ⟨e.data, List.mem_map.mpr ⟨e, he, rfl⟩, rfl⟩
    obtain ⟨a, b, hab⟩ := tagsBody_mem ((es.map String.data).map lowerL)
      (lowerL e.data) hm
    refine ⟨'[' :: a, b, ?_⟩
    rw [← hle]
    simp only [List.cons_append, List.append_assoc, List.singleton_append,
      List.nil_append]
    rw [hab]

/-- C8 (corrected): for plain tag values — letters, digits, dash and
space — the LIKE-based tag filter is AND of case-insensitive
exact-element matching: a record whose tags column holds the JSON
encoding of plain tags satisfies the tag clause exactly when every
required tag equals some stored tag up to ASCII case, and any record
passing the full WHERE test meets that condition.  Without the
plainness restriction the claimed exact matching fails, because the
LIKE pattern can match across the JSON separators of the stored text;
see the counterexample. -/
theorem C8_tag_filter_exact
    (fts : String → Paper → Bool) (re : String → String → Option Bool)
    (cfg : SearchConfig) (p : Paper) (req es : List String)
    (hreq : cfg.tags = some req)
    (hreqp : ∀ t ∈ req, t.data.all plainChar = true)
    (hesp : ∀ e ∈ es, e.data.all plainChar = true)
    (hp : p.tags = some (encTags es)) :
    (tagsPred cfg.tags p = true
      ↔ ∀ t ∈ req, ∃ e ∈ es, lowerL e.data = lowerL t.data)
    ∧ (wherePred fts re cfg p = true
      → ∀ t ∈ req, ∃ e ∈ es, lowerL e.data = lowerL t.data) := by
  have htag : tagsPred cfg.tags p
      = req.all (fun t => likeCol (tagPattern t) p.tags) := by
    rw [hreq]
    simp only [tagsPred]
    by_cases h : req = []
    · subst h
      rfl
    · rw [if_neg h]
  have hiff : (req.all (fun t => likeCol (tagPattern t) p.tags) = true)
      ↔ ∀ t ∈ req, ∃ e ∈ es, lowerL e.data = lowerL t.data := by
    rw [hp]
    constructor
    · intro h t htm
      exact (likeTag_iff t es (hreqp t htm) hesp).mp
        (all_mem (fun t => likeCol (tagPattern t) (some (encTags es))) req h t htm)
    · intro h
      exact mem_all (fun t => likeCol (tagPattern t) (some (encTags es))) req
        (fun t htm => (likeTag_iff t es (hreqp t htm) hesp).mpr (h t htm))
  refine ⟨by rw [htag]; exact hiff, fun hw => ?_⟩
  simp only [wherePred, Bool.and_eq_true] at hw
  have h2 : tagsPred cfg.tags p = true := hw.2
  rw [htag] at h2
  exact hiff.mp h2

/-- C8 counterexample to exact-tag matching as claimed: the required
tag value consisting of a, a double quote, a comma, a space, another
double quote and b is not an element of the stored tag set with
elements a and b under any case folding, yet search_papers returns the
record, because the LIKE pattern matches across the JSON separator of
the stored tags text. -/
theorem C8_counterexample :
    (search_papers fxFts fxReFail fxTagCfg [fxTagRec]).2 = 1
    ∧ fxTagCfg.tags = some ["a\", \"b"]
    ∧ fxTagRec.tags = some (encTags ["a", "b"])
    ∧ (∀ e ∈ ["a", "b"],
        ¬(lowerL e.data = lowerL ("a\", \"b" : String).data)) :=
  ⟨by decide, rfl, rfl, by decide⟩

/-- C8 witness: the documented example — required tags AI and
Economics against the record tagged ai, economics and cmu —
instantiated through the exact-matching theorem. -/
theorem C8_tag_filter_exact_witness :
    ({ tags := some ["AI", "Economics"] } : SearchConfig).tags
      = some ["AI", "Economics"]
    ∧ (∀ t ∈ ["AI", "Economics"], t.data.all plainChar = true)
    ∧ (∀ e ∈ ["ai", "economics", "cmu"], e.data.all plainChar = true)
    ∧ fxRecAI3.tags = some (encTags ["ai", "economics", "cmu"])
    ∧ (tagsPred ({ tags := some ["AI", "Economics"] } : SearchConfig).tags fxRecAI3
          = true
        ↔ ∀ t ∈ ["AI", "Economics"], ∃ e ∈ ["ai", "economics", "cmu"],
            lowerL e.data = lowerL t.data) :=
  ⟨rfl, by decide, by decide, rfl,
    (C8_tag_filter_exact fxFts fxReFail
      ({ tags := some ["AI", "Economics"] } : SearchConfig) fxRecAI3
      ["AI", "Economics"] ["ai", "economics", "cmu"]
      rfl (by decide) (by decide) rfl).1⟩

end Simon
